import Mathlib

/-!
Verification of the editable-table page (`example/pages/4_Editable_table.py`).

The development shallowly embeds the page's logic:

* Python values stored in table cells are modeled by `PyVal` (numbers are
  modeled as integers; floating point is not exercised by any property here).
  Python strings are `String`, Python `bytes`/`bytearray` are collapsed into
  one constructor, Python `list`/`dict` are the two nested constructors.
* The standard-library JSON codec (`json.dumps` / `json.loads`) used by the
  page is modeled concretely by `dumpsVal` and `loads`.  `json.dumps` is
  modeled with its default separators (", " and ": ") and the two string
  escapes that suffice on the value domain modeled here (the quote and the
  backslash; `ensure_ascii` escaping of exotic code points is out of scope).
  `json.dumps` raises `TypeError` on a non-encodable value (`bytes` here),
  `json.loads` raises `JSONDecodeError` on malformed text and `TypeError`
  when handed a non-string: both are modeled as `PyErr` results.
* Exceptions are modeled by `Except` / an error field; mutation of the
  process-local applied-edits record is modeled by explicit state passing,
  and the DynamoDB connection by the trace of store calls plus an oracle
  `storeFail` saying which store calls raise.
-/

/- Python value stored in a DataFrame cell or a diff payload.  Mutual with
`PyList` (Python list) and `PyFields` (Python dict, insertion-ordered). -/
mutual
inductive PyVal where
  | none : PyVal
  | bool (b : Bool) : PyVal
  | int (n : Int) : PyVal
  | str (s : String) : PyVal
  | bytes (s : String) : PyVal
  | list (l : PyList) : PyVal
  | dict (l : PyFields) : PyVal
deriving DecidableEq

inductive PyList where
  | nil : PyList
  | cons (hd : PyVal) (tl : PyList) : PyList
deriving DecidableEq

inductive PyFields where
  | nil : PyFields
  | cons (k : String) (v : PyVal) (tl : PyFields) : PyFields
deriving DecidableEq
end

/-- Exceptions that the page's code can raise or observe:
`decodeError` is `json.JSONDecodeError`, `jsonError` is the page's own
`JSONError` carrying the offending column name, `typeError` is `TypeError`
(non-encodable value given to `json.dumps`, non-string given to
`json.loads`), `indexError` is a bad positional index into `df.index`,
`keyError` is a missing reserved key column on an added row,
`storeError` is an exception raised by a DynamoDB call, and
`stopIteration` is `next()` on the exhausted iterator of an empty table. -/
inductive PyErr where
  | decodeError : PyErr
  | jsonError (col : String) : PyErr
  | typeError : PyErr
  | indexError : PyErr
  | keyError : PyErr
  | storeError : PyErr
  | stopIteration : PyErr
deriving DecidableEq

instance {ε α : Type} [DecidableEq ε] [DecidableEq α] : DecidableEq (Except ε α) := by
  intro a b
  cases a <;> cases b
  case error.error x y =>
    exact if h : x = y then .isTrue (by rw [h]) else .isFalse (by intro hc; injection hc; contradiction)
  case ok.ok x y =>
    exact if h : x = y then .isTrue (by rw [h]) else .isFalse (by intro hc; injection hc; contradiction)
  case error.ok x y => exact .isFalse (by intro hc; injection hc)
  case ok.error x y => exact .isFalse (by intro hc; injection hc)

/-- Decimal digit character (defined for 0..9; callers keep the argument
below 10). -/
def digitChar : Nat → Char
  | 0 => '0' | 1 => '1' | 2 => '2' | 3 => '3' | 4 => '4'
  | 5 => '5' | 6 => '6' | 7 => '7' | 8 => '8' | _ => '9'

/-- Fuel-driven decimal printer; with fuel above `n` it prints `n` in base 10,
most significant digit first. -/
def natToDigitsAux : Nat → Nat → List Char
  | 0, _ => []
  | fuel + 1, n =>
      if n < 10 then [digitChar n]
      else natToDigitsAux fuel (n / 10) ++ [digitChar (n % 10)]

/-- Decimal representation of a natural number, as `repr`/`json.dumps` print it. -/
def natToDigits (n : Nat) : List Char := natToDigitsAux (n + 1) n

/-- Decimal representation of an integer (minus sign for negatives), as
`json.dumps` prints a Python int. -/
def intToChars (n : Int) : List Char :=
  if n < 0 then '-' :: natToDigits n.natAbs else natToDigits n.natAbs

/-- JSON string escaping for one character: `json.dumps` escapes the quote and
the backslash (control and non-ASCII characters are outside the modeled
value domain). -/
def escapeChar (c : Char) : List Char :=
  if c = '"' ∨ c = '\\' then ['\\', c] else [c]

def escapeStr (s : List Char) : List Char :=
  s.foldr (fun c acc => escapeChar c ++ acc) []

/-- Joins already-printed items with the default `json.dumps` separator ", ":
`joinTail` renders all but the first item. -/
def joinTail : List (List Char) → List Char
  | [] => []
  | s :: rest => ',' :: ' ' :: (s ++ joinTail rest)

def joinComma : List (List Char) → List Char
  | [] => []
  | s :: rest => s ++ joinTail rest

/- Model of `json.dumps` with default options, producing the character list
of the encoding, or `TypeError` on a non-encodable (`bytes`) value. -/
mutual
def dumpsVal : PyVal → Except PyErr (List Char)
  | .none => .ok ['n', 'u', 'l', 'l']
  | .bool true => .ok ['t', 'r', 'u', 'e']
  | .bool false => .ok ['f', 'a', 'l', 's', 'e']
  | .int n => .ok (intToChars n)
  | .str s => .ok ('"' :: (escapeStr s.data ++ ['"']))
  | .bytes _ => .error .typeError
  | .list l => do
      let parts ← dumpsElems l
      .ok ('[' :: (joinComma parts ++ [']']))
  | .dict l => do
      let parts ← dumpsFields l
      .ok ('{' :: (joinComma parts ++ ['}']))

def dumpsElems : PyList → Except PyErr (List (List Char))
  | .nil => .ok []
  | .cons v vs => do
      let s ← dumpsVal v
      let rest ← dumpsElems vs
      .ok (s :: rest)

def dumpsFields : PyFields → Except PyErr (List (List Char))
  | .nil => .ok []
  | .cons k v kvs => do
      let s ← dumpsVal v
      let rest ← dumpsFields kvs
      .ok (('"' :: (escapeStr k.data ++ ['"', ':', ' '] ++ s)) :: rest)
end

/-- Reverse-append, used by the parser to keep accumulated elements in order. -/
def PyList.revAppend : PyList → PyList → PyList
  | .nil, acc => acc
  | .cons v vs, acc => PyList.revAppend vs (.cons v acc)

def PyFields.revAppend : PyFields → PyFields → PyFields
  | .nil, acc => acc
  | .cons k v kvs, acc => PyFields.revAppend kvs (.cons k v acc)

/-- Skips the blank characters `json.loads` would skip (the printer only ever
emits plain spaces, which is all the properties here exercise). -/
def dropSpaces : List Char → List Char
  | [] => []
  | c :: rest => if c = ' ' then dropSpaces rest else c :: rest

/-- Parses the body of a JSON string after the opening quote, undoing
`escapeChar`; returns the decoded characters and the input after the closing
quote, or `Option.none` on an unterminated/ill-escaped string. -/
def parseStr : List Char → Option (List Char × List Char)
  | [] => Option.none
  | c :: rest =>
    if c = '"' then some ([], rest)
    else if c = '\\' then
      match rest with
      | [] => Option.none
      | c2 :: rest2 =>
        if c2 = '"' ∨ c2 = '\\' then (parseStr rest2).map (fun p => (c2 :: p.1, p.2))
        else Option.none
    else (parseStr rest).map (fun p => (c :: p.1, p.2))

def digitVal (c : Char) : Nat := c.toNat - 48

/-- Reads a maximal run of decimal digits, folding them onto `acc`. -/
def readDigits : List Char → Nat → Nat × List Char
  | [], acc => (acc, [])
  | c :: rest, acc =>
      if c.isDigit then readDigits rest (acc * 10 + digitVal c) else (acc, c :: rest)

/-- Value of a digit run read left to right onto `acc` (the loop invariant of
`readDigits`). -/
def foldDigits (acc : Nat) (ds : List Char) : Nat :=
  ds.foldl (fun a c => a * 10 + digitVal c) acc

/-- Holds when the input does not continue with a digit (so a number parse
stops exactly here). -/
def notDigitStart : List Char → Bool
  | [] => true
  | c :: _ => !c.isDigit

/-- One step of the `json.loads` value grammar.  The continuations `pv`,
`pa`, `pe` are the parsers for a nested value, an array tail and an object
entry at the next-smaller fuel; `parseVal` below ties the knot. -/
def parseValStep
    (pv : List Char → Except PyErr (PyVal × List Char))
    (pa : PyList → List Char → Except PyErr (PyVal × List Char))
    (pe : PyFields → List Char → Except PyErr (PyVal × List Char))
    (input : List Char) : Except PyErr (PyVal × List Char) :=
  match input with
  | [] => .error .decodeError
  | c :: rest =>
    if c = 'n' then
      match rest with
      | 'u' :: 'l' :: 'l' :: r => .ok (.none, r)
      | _ => .error .decodeError
    else if c = 't' then
      match rest with
      | 'r' :: 'u' :: 'e' :: r => .ok (.bool true, r)
      | _ => .error .decodeError
    else if c = 'f' then
      match rest with
      | 'a' :: 'l' :: 's' :: 'e' :: r => .ok (.bool false, r)
      | _ => .error .decodeError
    else if c = '"' then
      match parseStr rest with
      | some (s, r) => .ok (.str (String.mk s), r)
      | Option.none => .error .decodeError
    else if c = '[' then
      match dropSpaces rest with
      | [] => .error .decodeError
      | c2 :: r =>
        if c2 = ']' then .ok (.list .nil, r)
        else pv (c2 :: r) >>= fun p => pa (.cons p.1 .nil) p.2
    else if c = '{' then
      match dropSpaces rest with
      | [] => .error .decodeError
      | c2 :: r =>
        if c2 = '}' then .ok (.dict .nil, r)
        else pe .nil (c2 :: r)
    else if c = '-' then
      match rest with
      | [] => .error .decodeError
      | c2 :: _ =>
        if c2.isDigit then
          .ok (.int (-(((readDigits rest 0).1 : Nat) : Int)), (readDigits rest 0).2)
        else .error .decodeError
    else if c.isDigit then
      .ok (.int (((readDigits (c :: rest) 0).1 : Nat) : Int), (readDigits (c :: rest) 0).2)
    else .error .decodeError

/-- One step of the array-tail grammar after an element: a closing bracket
finishes the array, a comma parses the next element and continues. -/
def parseArrTailStep
    (pv : List Char → Except PyErr (PyVal × List Char))
    (pa : PyList → List Char → Except PyErr (PyVal × List Char))
    (acc : PyList) (input : List Char) : Except PyErr (PyVal × List Char) :=
  match dropSpaces input with
  | [] => .error .decodeError
  | c :: r =>
    if c = ']' then .ok (.list (acc.revAppend .nil), r)
    else if c = ',' then pv (dropSpaces r) >>= fun p => pa (.cons p.1 acc) p.2
    else .error .decodeError

/-- One step of the object-entry grammar: a quoted key, a colon, a value,
then the object tail. -/
def parseObjEntryStep
    (pv : List Char → Except PyErr (PyVal × List Char))
    (po : PyFields → List Char → Except PyErr (PyVal × List Char))
    (acc : PyFields) (input : List Char) : Except PyErr (PyVal × List Char) :=
  match input with
  | [] => .error .decodeError
  | c :: rest =>
    if c = '"' then
      match parseStr rest with
      | some (k, r1) =>
        (match dropSpaces r1 with
         | [] => .error .decodeError
         | c2 :: r2 =>
           if c2 = ':' then
             pv (dropSpaces r2) >>= fun p => po (.cons (String.mk k) p.1 acc) p.2
           else .error .decodeError)
      | Option.none => .error .decodeError
    else .error .decodeError

/-- One step of the object-tail grammar after an entry. -/
def parseObjTailStep
    (pe : PyFields → List Char → Except PyErr (PyVal × List Char))
    (acc : PyFields) (input : List Char) : Except PyErr (PyVal × List Char) :=
  match dropSpaces input with
  | [] => .error .decodeError
  | c :: r =>
    if c = '}' then .ok (.dict (acc.revAppend .nil), r)
    else if c = ',' then pe acc (dropSpaces r)
    else .error .decodeError

/- Model of the `json.loads` grammar on the printed fragment, fuel-driven;
the fuel only bounds nesting-driven recursion and `loads` below always
supplies enough of it. -/
mutual
def parseVal : Nat → List Char → Except PyErr (PyVal × List Char)
  | 0, _ => .error .decodeError
  | fuel + 1, input =>
      parseValStep (parseVal fuel) (parseArrTail fuel) (parseObjEntry fuel) input

def parseArrTail : Nat → PyList → List Char → Except PyErr (PyVal × List Char)
  | 0, _, _ => .error .decodeError
  | fuel + 1, acc, input => parseArrTailStep (parseVal fuel) (parseArrTail fuel) acc input

def parseObjEntry : Nat → PyFields → List Char → Except PyErr (PyVal × List Char)
  | 0, _, _ => .error .decodeError
  | fuel + 1, acc, input => parseObjEntryStep (parseVal fuel) (parseObjTail fuel) acc input

def parseObjTail : Nat → PyFields → List Char → Except PyErr (PyVal × List Char)
  | 0, _, _ => .error .decodeError
  | fuel + 1, acc, input => parseObjTailStep (parseObjEntry fuel) acc input
end

/-- Model of `json.loads` on a string: parse one value and require only blank
characters to remain, otherwise `JSONDecodeError` (`decodeError`). -/
def loads (s : List Char) : Except PyErr PyVal :=
  match parseVal (s.length + 1) (dropSpaces s) with
  | .ok p => if dropSpaces p.2 = [] then .ok p.1 else .error .decodeError
  | .error e => .error e

/-- One DataFrame row: an insertion-ordered mapping from column label to
cell value (labels are unique in any real DataFrame). -/
abbrev PyRow := List (String × PyVal)

/-- A DataFrame: the index (one key per row, in row order) plus the rows.
`df.index[i]` resolves a grid row position to the row's DynamoDB key. -/
structure PyTable where
  index : List PyVal
  rows : List PyRow
deriving DecidableEq

/-- The `isinstance` test of `_get_json_serializable_cols`: a value qualifies
when it is a `Mapping` or a `Sequence` and not a `str`/`bytes`/`bytearray`;
on the modeled domain that is exactly the Python `dict` and `list` values. -/
def isJsonSerializableVal : PyVal → Bool
  | .list _ => true
  | .dict _ => true
  | _ => false

/-- Model of `_get_json_serializable_cols`: `next(df.iterrows())` takes the
first row (raising `StopIteration`, modeled as `Option.none`, when the table
has no rows) and collects the labels whose value passes the `isinstance`
test, in column order. -/
def get_json_serializable_cols (df : PyTable) : Option (List String) :=
  match df.rows with
  | [] => Option.none
  | row :: _ => some ((row.filter (fun kv => isJsonSerializableVal kv.2)).map Prod.fst)

/-- Effectful map over a list, stopping at the first raised exception, as a
Python loop or pandas `apply` does. -/
def mapE {α β : Type} (f : α → Except PyErr β) : List α → Except PyErr (List β)
  | [] => .ok []
  | x :: xs => do
      let y ← f x
      let ys ← mapE f xs
      .ok (y :: ys)

/-- Model of `df[c] = df[c].apply(f)` restricted to one row: applies `f` to
the cell in column `c`, leaving the other cells alone. -/
def applyColE (f : PyVal → Except PyErr PyVal) (c : String) (row : PyRow) :
    Except PyErr PyRow :=
  mapE (fun kv => if kv.1 = c then do
          let w ← f kv.2
          Except.ok (kv.1, w)
        else .ok kv) row

/-- The cell function of `_serialize_json_cols`: `lambda o: json.dumps(o)`,
with the resulting text stored back into the cell. -/
def jsonDumpsCell (v : PyVal) : Except PyErr PyVal :=
  match dumpsVal v with
  | .ok s => .ok (.str (String.mk s))
  | .error e => .error e

/-- Column loop of `_serialize_json_cols` over the rows of the frame. -/
def serializeColsRows : List String → List PyRow → Except PyErr (List PyRow)
  | [], rows => .ok rows
  | c :: cs, rows => do
      let r1 ← mapE (applyColE jsonDumpsCell c) rows
      serializeColsRows cs r1

/-- Row-wise view of the column loop of `_serialize_json_cols`: the fold of
the per-column cell replacement over one row (the column loop and the row
dimension commute, which the lemmas below exploit). -/
def serializeRowCols : List String → PyRow → Except PyErr PyRow
  | [], row => .ok row
  | c :: cs, row => do
      let r1 ← applyColE jsonDumpsCell c row
      serializeRowCols cs r1

/-- Model of `_serialize_json_cols(df, json_cols)`: every row has each JSON
column's value replaced by its `json.dumps` text.  (The Python function
mutates its argument in place and returns it; the heap model below accounts
for the aliasing, this function gives the value-level result.) -/
def serialize_json_cols (df : PyTable) (json_cols : List String) :
    Except PyErr PyTable :=
  match serializeColsRows json_cols df.rows with
  | .ok rs => .ok ⟨df.index, rs⟩
  | .error e => .error e

/-- The cell function of `_deserialize_json_cols`:
`lambda s: json.loads(s) if s is not None else None`.  A non-string,
non-`None` cell makes `json.loads` raise `TypeError`. -/
def deserializer : PyVal → Except PyErr PyVal
  | .none => .ok .none
  | .str s => loads s.data
  | _ => .error .typeError

/-- One column step of `_deserialize_json_cols` on a DataFrame: the
`try`/`except` around the column's `apply` turns a `json.JSONDecodeError`
into the page's `JSONError` carrying that column's name. -/
def deserializeColRows (c : String) (rows : List PyRow) :
    Except PyErr (List PyRow) :=
  match mapE (applyColE deserializer c) rows with
  | .error .decodeError => .error (.jsonError c)
  | r => r

def deserializeColsRows : List String → List PyRow → Except PyErr (List PyRow)
  | [], rows => .ok rows
  | c :: cs, rows => do
      let r1 ← deserializeColRows c rows
      deserializeColsRows cs r1

/-- Model of `_deserialize_json_cols` on a DataFrame argument. -/
def deserialize_json_cols_df (df : PyTable) (json_cols : List String) :
    Except PyErr PyTable :=
  match deserializeColsRows json_cols df.rows with
  | .ok rs => .ok ⟨df.index, rs⟩
  | .error e => .error e

/-- One column step of `_deserialize_json_cols` on a `MutableMapping`
argument: only a column present in the mapping is touched
(`if json_col in data`), and a `json.JSONDecodeError` becomes a `JSONError`
carrying that column's name. -/
def deserializeMapCol (c : String) (row : PyRow) : Except PyErr PyRow :=
  if (row.lookup c).isSome then
    match applyColE deserializer c row with
    | .error .decodeError => .error (.jsonError c)
    | r => r
  else .ok row

/-- Model of `_deserialize_json_cols` on a `MutableMapping` argument (the
diff payload entries). -/
def deserialize_json_cols_map : PyRow → List String → Except PyErr PyRow
  | row, [] => .ok row
  | row, c :: cs => do
      let r1 ← deserializeMapCol c row
      deserialize_json_cols_map r1 cs

def singleQuote : String := String.mk ['\x27']

/-- The message of the `JSONError` raised by `_deserialize_json_cols` (the
column name sits between single quotes). -/
def jsonErrorMessage (c : String) : String :=
  "Invalid json string in column " ++ singleQuote ++ c ++ singleQuote ++ "!"

/-- The diff payload `st.session_state[widget_key]` delivers on a render:
edited rows keyed by row position, added full rows, deleted row positions. -/
structure EditInfo where
  edited_rows : List (Nat × PyRow)
  added_rows : List PyRow
  deleted_rows : List Nat
deriving DecidableEq

/-- The applied-edits record `processed_edits` (session state): edited-row
entries keyed by position, canonical text representations of added rows, and
deleted row keys. -/
structure ProcessedEdits where
  edited_rows : List (Nat × PyRow)
  added_rows : List (List Char)
  deleted_rows : List PyVal
deriving DecidableEq

/-- One call made on the DynamoDB connection. -/
inductive StoreCall where
  | modify_item (key : PyVal) (item : PyRow) : StoreCall
  | put_item (key : PyVal) (item : PyRow) : StoreCall
  | del_item (key : PyVal) : StoreCall
deriving DecidableEq

/-- Result of a `process_edits` run: the store calls made (in order), the
applied-edits record as left in session state, and the exception that
escaped, if any (mutations made before the exception persist, as in
Python). -/
structure ProcOut where
  calls : List StoreCall
  state : ProcessedEdits
  err : Option PyErr
deriving DecidableEq

/-- Store oracle for runs in which no DynamoDB call raises. -/
def noFail : StoreCall → Bool := fun _ => false

/-- Python dict assignment `d[i] = r` on an insertion-ordered association
list: replace in place if the key exists, else append. -/
def updateAssoc : List (Nat × PyRow) → Nat → PyRow → List (Nat × PyRow)
  | [], i, r => [(i, r)]
  | kv :: rest, i, r => if kv.1 = i then (i, r) :: rest else kv :: updateAssoc rest i r

/-- The `edited_rows` loop of `process_edits`: resolve the position through
`df.index`, deserialize the changed columns, skip if the identical
(position, content) pair is recorded, otherwise call `modify_item` and
record the pair.  `storeFail` says which store calls raise. -/
def runEdited (df : PyTable) (json_cols : List String) (storeFail : StoreCall → Bool) :
    List (Nat × PyRow) → ProcessedEdits → List StoreCall → ProcOut
  | [], st, calls => ⟨calls, st, Option.none⟩
  | (idx, erow) :: rest, st, calls =>
    match df.index[idx]? with
    | Option.none => ⟨calls, st, some .indexError⟩
    | some index_val =>
      match deserialize_json_cols_map erow json_cols with
      | .error e => ⟨calls, st, some e⟩
      | .ok d =>
        if st.edited_rows.lookup idx = some d then
          runEdited df json_cols storeFail rest st calls
        else
          let call := StoreCall.modify_item index_val d
          if storeFail call then ⟨calls ++ [call], st, some .storeError⟩
          else runEdited df json_cols storeFail rest
            ⟨updateAssoc st.edited_rows idx d, st.added_rows, st.deleted_rows⟩
            (calls ++ [call])

/-- Stable insertion into a row sorted by column label, modeling
`sort_keys=True`. -/
def insertByKey (kv : String × PyVal) : PyRow → PyRow
  | [] => [kv]
  | kv2 :: rest => if kv.1 < kv2.1 then kv :: kv2 :: rest else kv2 :: insertByKey kv rest

def rowSortedByKeys (row : PyRow) : PyRow :=
  row.foldl (fun acc kv => insertByKey kv acc) []

def rowToFields : PyRow → PyFields
  | [] => .nil
  | kv :: rest => .cons kv.1 kv.2 (rowToFields rest)

/-- Model of `json.dumps(added_row, sort_keys=True)`: the canonical,
key-order-independent text representation recorded for an added row. -/
def added_row_repr (row : PyRow) : Except PyErr (List Char) :=
  dumpsVal (.dict (rowToFields (rowSortedByKeys row)))

/-- Python `added_row.pop("_index")` removes the reserved key column. -/
def eraseKey (c : String) (row : PyRow) : PyRow :=
  row.filter (fun kv => kv.1 != c)

/-- The `added_rows` loop of `process_edits`: deserialize, pop the reserved
`_index` key column (`KeyError` when missing), skip when the canonical
representation of the remaining columns is recorded, otherwise call
`put_item` and record the representation. -/
def runAdded (json_cols : List String) (storeFail : StoreCall → Bool) :
    List PyRow → ProcessedEdits → List StoreCall → ProcOut
  | [], st, calls => ⟨calls, st, Option.none⟩
  | arow :: rest, st, calls =>
    match deserialize_json_cols_map arow json_cols with
    | .error e => ⟨calls, st, some e⟩
    | .ok d =>
      match d.lookup "_index" with
      | Option.none => ⟨calls, st, some .keyError⟩
      | some keys =>
        let item := eraseKey "_index" d
        match added_row_repr item with
        | .error e => ⟨calls, st, some e⟩
        | .ok rep =>
          if rep ∈ st.added_rows then runAdded json_cols storeFail rest st calls
          else
            let call := StoreCall.put_item keys item
            if storeFail call then ⟨calls ++ [call], st, some .storeError⟩
            else runAdded json_cols storeFail rest
              ⟨st.edited_rows, st.added_rows ++ [rep], st.deleted_rows⟩
              (calls ++ [call])

/-- The `deleted_rows` loop of `process_edits`: resolve the position through
`df.index`, skip when that key is recorded as deleted, otherwise call
`del_item` and record the key. -/
def runDeleted (df : PyTable) (storeFail : StoreCall → Bool) :
    List Nat → ProcessedEdits → List StoreCall → ProcOut
  | [], st, calls => ⟨calls, st, Option.none⟩
  | idx :: rest, st, calls =>
    match df.index[idx]? with
    | Option.none => ⟨calls, st, some .indexError⟩
    | some index_val =>
      if index_val ∈ st.deleted_rows then runDeleted df storeFail rest st calls
      else
        let call := StoreCall.del_item index_val
        if storeFail call then ⟨calls ++ [call], st, some .storeError⟩
        else runDeleted df storeFail rest
          ⟨st.edited_rows, st.added_rows, st.deleted_rows ++ [index_val]⟩
          (calls ++ [call])

/-- Model of `process_edits`: the three loops in source order
(edited, added, deleted); an exception in one loop prevents the later loops
from running but keeps the mutations already made. -/
def process_edits (df : PyTable) (json_cols : List String)
    (storeFail : StoreCall → Bool) (info : EditInfo) (st : ProcessedEdits) : ProcOut :=
  let r1 := runEdited df json_cols storeFail info.edited_rows st []
  match r1.err with
  | some _ => r1
  | Option.none =>
    let r2 := runAdded json_cols storeFail info.added_rows r1.state r1.calls
    match r2.err with
    | some _ => r2
    | Option.none => runDeleted df storeFail info.deleted_rows r2.state r2.calls

/-- Outcome of one `edit()` render: `stopped` is the `st.error`/`st.stop`
path (the only caught exception), `raised` is an exception escaping `edit()`
uncaught, `returned` is a normal return of the deserialized edited copy.
Each carries the store calls made and the applied-edits record afterward. -/
inductive EditOutcome where
  | stopped (msg : String) (calls : List StoreCall) (st : ProcessedEdits) : EditOutcome
  | raised (e : PyErr) (calls : List StoreCall) (st : ProcessedEdits) : EditOutcome
  | returned (edited_df : PyTable) (calls : List StoreCall) (st : ProcessedEdits) : EditOutcome
deriving DecidableEq

def isStopped : EditOutcome → Bool
  | .stopped _ _ _ => true
  | _ => false

/-- Model of one render of `DynamoDBTableEditor.edit()`.  `df` is the session
snapshot `self.df`; the grid widget is a black box whose outputs — the edited
display copy and the diff payload — are the parameters `widget_df` and
`info`.  Only the display-copy deserialization sits inside
`try ... except JSONError`; every other exception escapes `edit()`. -/
def edit (df : PyTable) (widget_df : PyTable) (info : EditInfo)
    (storeFail : StoreCall → Bool) (st : ProcessedEdits) : EditOutcome :=
  match get_json_serializable_cols df with
  | Option.none => .raised .stopIteration [] st
  | some json_cols =>
    match serialize_json_cols df json_cols with
    | .error e => .raised e [] st
    | .ok _display =>
      match deserialize_json_cols_df widget_df json_cols with
      | .error (.jsonError c) => .stopped (jsonErrorMessage c) [] st
      | .error e => .raised e [] st
      | .ok edited_df =>
        let r := process_edits df json_cols storeFail info st
        match r.err with
        | some e => .raised e r.calls r.state
        | Option.none => .returned edited_df r.calls r.state

def emptyTable : PyTable := ⟨[], []⟩

/-- Minimal object heap, to express the aliasing facts of the serialize step:
references are indices into a list of table objects. -/
abbrev Heap := List PyTable

def heapGet (h : Heap) (r : Nat) : PyTable := h.getD r emptyTable

/-- Model of `df.copy()`: allocate a fresh object with the same value. -/
def heapCopy (h : Heap) (r : Nat) : Heap × Nat := (h ++ [heapGet h r], h.length)

/-- Model of `_serialize_json_cols` as the in-place mutation it performs on
its argument object. -/
def serializeInPlace (h : Heap) (r : Nat) (json_cols : List String) :
    Except PyErr Heap :=
  match serialize_json_cols (heapGet h r) json_cols with
  | .ok t => .ok (h.set r t)
  | .error e => .error e

/-- The serialize step of `edit()`:
`df = _serialize_json_cols(self.df.copy(), json_cols)` — copy the snapshot,
then serialize the copy in place; the returned reference is the copy. -/
def editSerializeStep (h : Heap) (dfRef : Nat) (json_cols : List String) :
    Except PyErr (Heap × Nat) :=
  let p := heapCopy h dfRef
  match serializeInPlace p.1 p.2 json_cols with
  | .ok h2 => .ok (h2, p.2)
  | .error e => .error e

theorem natToDigitsAux_fuel : ∀ {fuel fuel2 n : Nat}, n < fuel → n < fuel2 →
    natToDigitsAux fuel n = natToDigitsAux fuel2 n := by
  intro fuel
  induction fuel with
  | zero => intro fuel2 n h; omega
  | succ f ih =>
    intro fuel2 n h h2
    cases fuel2 with
    | zero => omega
    | succ f2 =>
      simp only [natToDigitsAux]
      by_cases h10 : n < 10
      · simp [h10]
      · simp only [if_neg h10]
        congr 1
        exact ih (by omega) (by omega)

theorem natToDigits_eq (n : Nat) :
    natToDigits n =
      if n < 10 then [digitChar n]
      else natToDigits (n / 10) ++ [digitChar (n % 10)] := by
  show natToDigitsAux (n + 1) n = _
  by_cases h : n < 10
  · simp [natToDigitsAux, h]
  · simp only [natToDigitsAux, if_neg h]
    have : natToDigitsAux n (n / 10) = natToDigitsAux (n / 10 + 1) (n / 10) :=
      natToDigitsAux_fuel (by omega) (by omega)
    rw [this]
    rfl

theorem digitChar_isDigit {d : Nat} (h : d < 10) : (digitChar d).isDigit = true := by
  interval_cases d <;> decide

theorem digitVal_digitChar {d : Nat} (h : d < 10) : digitVal (digitChar d) = d := by
  interval_cases d <;> decide

theorem natToDigits_digits (n : Nat) : ∀ c ∈ natToDigits n, c.isDigit = true := by
  induction n using Nat.strong_induction_on with
  | _ n ih =>
    rw [natToDigits_eq]
    by_cases h : n < 10
    · simpa [h] using digitChar_isDigit h
    · simp only [if_neg h, List.mem_append, List.mem_singleton]
      rintro c (hc | rfl)
      · exact ih (n / 10) (by omega) c hc
      · exact digitChar_isDigit (by omega)

theorem natToDigits_ne_nil (n : Nat) : natToDigits n ≠ [] := by
  rw [natToDigits_eq]
  by_cases h : n < 10 <;> simp [h]

theorem isDigit_ne {c : Char} (h : c.isDigit = true) :
    c ≠ 'n' ∧ c ≠ 't' ∧ c ≠ 'f' ∧ c ≠ '"' ∧ c ≠ '[' ∧ c ≠ '{' ∧ c ≠ '-' ∧
      c ≠ ' ' ∧ c ≠ ']' ∧ c ≠ '}' ∧ c ≠ ',' := by
  refine ⟨?_, ?_, ?_, ?_, ?_, ?_, ?_, ?_, ?_, ?_, ?_⟩ <;>
    (rintro rfl; exact absurd h (by decide))

theorem readDigits_notDigit {l : List Char} (h : notDigitStart l = true) (acc : Nat) :
    readDigits l acc = (acc, l) := by
  cases l with
  | nil => rfl
  | cons c r =>
    simp only [notDigitStart, Bool.not_eq_true'] at h
    simp [readDigits, h]

theorem readDigits_digits : ∀ (ds : List Char) (rest : List Char) (acc : Nat),
    (∀ c ∈ ds, c.isDigit = true) →
    readDigits (ds ++ rest) acc = readDigits rest (foldDigits acc ds) := by
  intro ds
  induction ds with
  | nil => intro rest acc _; rfl
  | cons d ds ih =>
    intro rest acc hall
    have hd : d.isDigit = true := hall d (List.mem_cons_self d ds)
    simp only [List.cons_append, readDigits, hd, if_pos]
    exact ih rest (acc * 10 + digitVal d) (fun c hc => hall c (List.mem_cons_of_mem d hc))

theorem foldDigits_append (acc : Nat) (ds1 ds2 : List Char) :
    foldDigits acc (ds1 ++ ds2) = foldDigits (foldDigits acc ds1) ds2 := by
  simp [foldDigits, List.foldl_append]

theorem foldDigits_natToDigits (n : Nat) : ∀ acc : Nat,
    foldDigits acc (natToDigits n) = acc * 10 ^ (natToDigits n).length + n := by
  induction n using Nat.strong_induction_on with
  | _ n ih =>
    intro acc
    rw [natToDigits_eq]
    by_cases h : n < 10
    · simp only [if_pos h, foldDigits, List.foldl_cons, List.foldl_nil, List.length_singleton,
        pow_one]
      rw [digitVal_digitChar h]
    · simp only [if_neg h, foldDigits_append, List.length_append, List.length_singleton]
      rw [ih (n / 10) (by omega)]
      simp only [foldDigits, List.foldl_cons, List.foldl_nil]
      rw [digitVal_digitChar (by omega)]
      rw [pow_succ]
      have : n = (n / 10) * 10 + n % 10 := by omega
      ring_nf
      omega

theorem readDigits_natToDigits {rest : List Char} (h : notDigitStart rest = true) (n : Nat) :
    readDigits (natToDigits n ++ rest) 0 = (n, rest) := by
  rw [readDigits_digits (natToDigits n) rest 0 (natToDigits_digits n),
    readDigits_notDigit h]
  have := foldDigits_natToDigits n 0
  simp only [zero_mul, zero_add] at this
  rw [this]

theorem dropSpaces_cons {c : Char} (h : c ≠ ' ') (r : List Char) :
    dropSpaces (c :: r) = c :: r := by
  simp [dropSpaces, h]

theorem parseStr_quote (rest : List Char) : parseStr ('"' :: rest) = some ([], rest) := by
  rw [parseStr.eq_def]
  rfl

theorem parseStr_escaped {c : Char} (h : c = '"' ∨ c = '\\') (rest : List Char) :
    parseStr ('\\' :: c :: rest) = (parseStr rest).map (fun p => (c :: p.1, p.2)) := by
  rw [parseStr.eq_def]
  simp [h]

theorem parseStr_other {c : Char} (h1 : c ≠ '"') (h2 : c ≠ '\\') (rest : List Char) :
    parseStr (c :: rest) = (parseStr rest).map (fun p => (c :: p.1, p.2)) := by
  rw [parseStr.eq_def]
  simp [h1, h2]

theorem parseStr_escape (s : List Char) (rest : List Char) :
    parseStr (escapeStr s ++ '"' :: rest) = some (s, rest) := by
  induction s with
  | nil => exact parseStr_quote rest
  | cons c cs ih =>
    rw [show escapeStr (c :: cs) = escapeChar c ++ escapeStr cs from rfl]
    by_cases h : c = '"' ∨ c = '\\'
    · rw [show escapeChar c = ['\\', c] from if_pos h, List.append_assoc]
      show parseStr ('\\' :: c :: (escapeStr cs ++ '"' :: rest)) = _
      rw [parseStr_escaped h, ih]
      rfl
    · rw [show escapeChar c = [c] from if_neg h, List.append_assoc]
      push_neg at h
      show parseStr (c :: (escapeStr cs ++ '"' :: rest)) = _
      rw [parseStr_other h.1 h.2, ih]
      rfl

theorem string_mk_data (s : String) : String.mk s.data = s := rfl

theorem dumpsVal_list_eq (l : PyList) :
    dumpsVal (.list l) =
      dumpsElems l >>= fun parts => Except.ok ('[' :: (joinComma parts ++ [']'])) := by
  rw [dumpsVal.eq_def]

theorem dumpsVal_dict_eq (l : PyFields) :
    dumpsVal (.dict l) =
      dumpsFields l >>= fun parts => Except.ok ('{' :: (joinComma parts ++ ['}'])) := by
  rw [dumpsVal.eq_def]

theorem dumpsElems_cons_eq (v : PyVal) (vs : PyList) :
    dumpsElems (.cons v vs) =
      dumpsVal v >>= fun s => dumpsElems vs >>= fun rest => Except.ok (s :: rest) := by
  rw [dumpsElems.eq_def]

theorem dumpsFields_cons_eq (k : String) (v : PyVal) (kvs : PyFields) :
    dumpsFields (.cons k v kvs) =
      dumpsVal v >>= fun s => dumpsFields kvs >>= fun rest =>
        Except.ok (('"' :: (escapeStr k.data ++ ['"', ':', ' '] ++ s)) :: rest) := by
  rw [dumpsFields.eq_def]

theorem dumpsVal_list_inv {l : PyList} {s : List Char} (h : dumpsVal (.list l) = .ok s) :
    ∃ parts, dumpsElems l = .ok parts ∧ s = '[' :: (joinComma parts ++ [']']) := by
  rw [dumpsVal_list_eq] at h
  cases hE : dumpsElems l with
  | error e => rw [hE] at h; exact absurd h (by simp [Bind.bind, Except.bind])
  | ok parts =>
    rw [hE] at h
    simp only [Bind.bind, Except.bind] at h
    injection h with h
    exact ⟨parts, rfl, h.symm⟩

theorem dumpsVal_dict_inv {l : PyFields} {s : List Char} (h : dumpsVal (.dict l) = .ok s) :
    ∃ parts, dumpsFields l = .ok parts ∧ s = '{' :: (joinComma parts ++ ['}']) := by
  rw [dumpsVal_dict_eq] at h
  cases hE : dumpsFields l with
  | error e => rw [hE] at h; exact absurd h (by simp [Bind.bind, Except.bind])
  | ok parts =>
    rw [hE] at h
    simp only [Bind.bind, Except.bind] at h
    injection h with h
    exact ⟨parts, rfl, h.symm⟩

theorem dumpsElems_cons_inv {v : PyVal} {vs : PyList} {ss : List (List Char)}
    (h : dumpsElems (.cons v vs) = .ok ss) :
    ∃ s0 ss2, dumpsVal v = .ok s0 ∧ dumpsElems vs = .ok ss2 ∧ ss = s0 :: ss2 := by
  rw [dumpsElems_cons_eq] at h
  cases hV : dumpsVal v with
  | error e => rw [hV] at h; exact absurd h (by simp [Bind.bind, Except.bind])
  | ok s0 =>
    rw [hV] at h
    cases hE : dumpsElems vs with
    | error e => rw [hE] at h; exact absurd h (by simp [Bind.bind, Except.bind])
    | ok ss2 =>
      rw [hE] at h
      simp only [Bind.bind, Except.bind] at h
      injection h with h
      exact ⟨s0, ss2, rfl, rfl, h.symm⟩

theorem dumpsFields_cons_inv {k : String} {v : PyVal} {kvs : PyFields}
    {ss : List (List Char)} (h : dumpsFields (.cons k v kvs) = .ok ss) :
    ∃ sv ss2, dumpsVal v = .ok sv ∧ dumpsFields kvs = .ok ss2 ∧
      ss = ('"' :: (escapeStr k.data ++ ['"', ':', ' '] ++ sv)) :: ss2 := by
  rw [dumpsFields_cons_eq] at h
  cases hV : dumpsVal v with
  | error e => rw [hV] at h; exact absurd h (by simp [Bind.bind, Except.bind])
  | ok sv =>
    rw [hV] at h
    cases hE : dumpsFields kvs with
    | error e => rw [hE] at h; exact absurd h (by simp [Bind.bind, Except.bind])
    | ok ss2 =>
      rw [hE] at h
      simp only [Bind.bind, Except.bind] at h
      injection h with h
      exact ⟨sv, ss2, rfl, rfl, h.symm⟩

theorem dumpsVal_head {v : PyVal} {s : List Char} (h : dumpsVal v = .ok s) :
    ∃ c cs, s = c :: cs ∧ c ≠ ' ' ∧ c ≠ ']' ∧ c ≠ '}' ∧ c ≠ ',' := by
  cases v with
  | none =>
    injection h with h
    exact ⟨'n', _, h.symm, by decide, by decide, by decide, by decide⟩
  | bool b =>
    cases b <;> injection h with h
    · exact ⟨'f', _, h.symm, by decide, by decide, by decide, by decide⟩
    · exact ⟨'t', _, h.symm, by decide, by decide, by decide, by decide⟩
  | int n =>
    injection h with h
    subst h
    show ∃ c cs, intToChars n = c :: cs ∧ _
    rw [intToChars]
    by_cases hn : n < 0
    · exact ⟨'-', _, by rw [if_pos hn], by decide, by decide, by decide, by decide⟩
    · rw [if_neg hn]
      cases hnd : natToDigits n.natAbs with
      | nil => exact absurd hnd (natToDigits_ne_nil _)
      | cons d ds =>
        have hd : d.isDigit = true := by
          apply natToDigits_digits n.natAbs
          rw [hnd]
          exact List.mem_cons_self d ds
        obtain ⟨-, -, -, -, -, -, -, h8, h9, h10, h11⟩ := isDigit_ne hd
        exact ⟨d, ds, rfl, h8, h9, h10, h11⟩
  | str s0 =>
    injection h with h
    exact ⟨'"', _, h.symm, by decide, by decide, by decide, by decide⟩
  | bytes s0 => exact absurd h (by rw [dumpsVal.eq_def]; simp)
  | list l =>
    obtain ⟨parts, -, hs⟩ := dumpsVal_list_inv h
    exact ⟨'[', _, hs, by decide, by decide, by decide, by decide⟩
  | dict l =>
    obtain ⟨parts, -, hs⟩ := dumpsVal_dict_inv h
    exact ⟨'{', _, hs, by decide, by decide, by decide, by decide⟩

theorem notDigitStart_sep (ss : List (List Char)) {c : Char} (hc : c.isDigit = false)
    (rest : List Char) : notDigitStart (joinTail ss ++ c :: rest) = true := by
  cases ss with
  | nil => simp [joinTail, notDigitStart, hc]
  | cons s0 ss2 => simp [joinTail, notDigitStart]

theorem parseVal_succ (f : Nat) (input : List Char) :
    parseVal (f + 1) input =
      parseValStep (parseVal f) (parseArrTail f) (parseObjEntry f) input := rfl

theorem parseArrTail_succ (f : Nat) (acc : PyList) (input : List Char) :
    parseArrTail (f + 1) acc input =
      parseArrTailStep (parseVal f) (parseArrTail f) acc input := rfl

theorem parseObjEntry_succ (f : Nat) (acc : PyFields) (input : List Char) :
    parseObjEntry (f + 1) acc input =
      parseObjEntryStep (parseVal f) (parseObjTail f) acc input := rfl

theorem parseObjTail_succ (f : Nat) (acc : PyFields) (input : List Char) :
    parseObjTail (f + 1) acc input = parseObjTailStep (parseObjEntry f) acc input := rfl

theorem parseValStep_null (pv pa pe) (r : List Char) :
    parseValStep pv pa pe ('n' :: 'u' :: 'l' :: 'l' :: r) = .ok (.none, r) := rfl

theorem parseValStep_true (pv pa pe) (r : List Char) :
    parseValStep pv pa pe ('t' :: 'r' :: 'u' :: 'e' :: r) = .ok (.bool true, r) := rfl

theorem parseValStep_false (pv pa pe) (r : List Char) :
    parseValStep pv pa pe ('f' :: 'a' :: 'l' :: 's' :: 'e' :: r) = .ok (.bool false, r) := rfl

theorem parseValStep_str (pv pa pe) {rest s r : List Char}
    (h : parseStr rest = some (s, r)) :
    parseValStep pv pa pe ('"' :: rest) = .ok (.str (String.mk s), r) := by
  simp [parseValStep, h]

theorem parseValStep_arr_close (pv pa pe) {rest r : List Char}
    (h : dropSpaces rest = ']' :: r) :
    parseValStep pv pa pe ('[' :: rest) = .ok (.list .nil, r) := by
  simp [parseValStep, h]

theorem parseValStep_arr_open (pv pa pe) {rest : List Char} {c2 : Char} {r : List Char}
    (h : dropSpaces rest = c2 :: r) (hc : c2 ≠ ']') :
    parseValStep pv pa pe ('[' :: rest) =
      pv (c2 :: r) >>= fun p => pa (.cons p.1 .nil) p.2 := by
  simp [parseValStep, h, hc]

theorem parseValStep_obj_close (pv pa pe) {rest r : List Char}
    (h : dropSpaces rest = '}' :: r) :
    parseValStep pv pa pe ('{' :: rest) = .ok (.dict .nil, r) := by
  simp [parseValStep, h]

theorem parseValStep_obj_open (pv pa pe) {rest : List Char} {c2 : Char} {r : List Char}
    (h : dropSpaces rest = c2 :: r) (hc : c2 ≠ '}') :
    parseValStep pv pa pe ('{' :: rest) = pe .nil (c2 :: r) := by
  simp [parseValStep, h, hc]

theorem parseValStep_neg (pv pa pe) {rest : List Char} {c2 : Char} {r2 : List Char}
    (h : rest = c2 :: r2) (hd : c2.isDigit = true) :
    parseValStep pv pa pe ('-' :: rest) =
      .ok (.int (-((readDigits rest 0).1 : Int)), (readDigits rest 0).2) := by
  subst h
  simp [parseValStep, hd]

theorem parseValStep_num (pv pa pe) {c : Char} (hd : c.isDigit = true) (rest : List Char) :
    parseValStep pv pa pe (c :: rest) =
      .ok (.int ((readDigits (c :: rest) 0).1 : Int), (readDigits (c :: rest) 0).2) := by
  obtain ⟨h1, h2, h3, h4, h5, h6, h7, -, -, -, -⟩ := isDigit_ne hd
  simp [parseValStep, h1, h2, h3, h4, h5, h6, h7, hd]

theorem parseArrTailStep_close (pv pa) {input r : List Char} (acc : PyList)
    (h : dropSpaces input = ']' :: r) :
    parseArrTailStep pv pa acc input = .ok (.list (acc.revAppend .nil), r) := by
  simp [parseArrTailStep, h]

theorem parseArrTailStep_comma (pv pa) {input r : List Char} (acc : PyList)
    (h : dropSpaces input = ',' :: r) :
    parseArrTailStep pv pa acc input =
      pv (dropSpaces r) >>= fun p => pa (.cons p.1 acc) p.2 := by
  simp [parseArrTailStep, h]

theorem parseObjEntryStep_eq (pv po) {rest k r1 r2 : List Char} (acc : PyFields)
    (hstr : parseStr rest = some (k, r1)) (hcolon : dropSpaces r1 = ':' :: r2) :
    parseObjEntryStep pv po acc ('"' :: rest) =
      pv (dropSpaces r2) >>= fun p => po (.cons (String.mk k) p.1 acc) p.2 := by
  simp [parseObjEntryStep, hstr, hcolon]

theorem parseObjTailStep_close (pe) {input r : List Char} (acc : PyFields)
    (h : dropSpaces input = '}' :: r) :
    parseObjTailStep pe acc input = .ok (.dict (acc.revAppend .nil), r) := by
  simp [parseObjTailStep, h]

theorem parseObjTailStep_comma (pe) {input r : List Char} (acc : PyFields)
    (h : dropSpaces input = ',' :: r) :
    parseObjTailStep pe acc input = pe acc (dropSpaces r) := by
  simp [parseObjTailStep, h]

theorem dropSpaces_space (r : List Char) : dropSpaces (' ' :: r) = dropSpaces r := by
  simp [dropSpaces]

theorem parse_print : ∀ f : Nat,
    (∀ v s rest, dumpsVal v = .ok s → s.length < f → notDigitStart rest = true →
        parseVal f (s ++ rest) = .ok (v, rest)) ∧
    (∀ es ss acc rest, dumpsElems es = .ok ss → (joinTail ss).length < f →
        notDigitStart rest = true →
        parseArrTail f acc (joinTail ss ++ ']' :: rest) =
          .ok (.list (acc.revAppend es), rest)) ∧
    (∀ kvs ss acc rest, dumpsFields kvs = .ok ss → (joinTail ss).length < f →
        notDigitStart rest = true →
        parseObjTail f acc (joinTail ss ++ '}' :: rest) =
          .ok (.dict (acc.revAppend kvs), rest)) ∧
    (∀ k v kvs sv ss acc rest, dumpsVal v = .ok sv → dumpsFields kvs = .ok ss →
        sv.length + 1 < f → (joinTail ss).length + 1 < f → notDigitStart rest = true →
        parseObjEntry f acc
            (('"' :: (escapeStr k.data ++ ['"', ':', ' '] ++ sv)) ++
              (joinTail ss ++ '}' :: rest)) =
          .ok (.dict (acc.revAppend (.cons k v kvs)), rest)) := by
  intro f
  induction f with
  | zero => refine ⟨?_, ?_, ?_, ?_⟩ <;> intros <;> omega
  | succ f ih =>
    obtain ⟨ihV, ihA, ihO, ihE⟩ := ih
    refine ⟨?_, ?_, ?_, ?_⟩
    · intro v s rest hd hlen hrest
      rw [parseVal_succ]
      cases v with
      | none =>
        injection hd with hd
        subst hd
        exact parseValStep_null _ _ _ rest
      | bool b =>
        cases b
        · injection hd with hd
          subst hd
          exact parseValStep_false _ _ _ rest
        · injection hd with hd
          subst hd
          exact parseValStep_true _ _ _ rest
      | int n =>
        injection hd with hd
        subst hd
        simp only [intToChars]
        by_cases hn : n < 0
        · rw [if_pos hn]
          cases hnd : natToDigits n.natAbs with
          | nil => exact absurd hnd (natToDigits_ne_nil _)
          | cons d ds =>
            have hdg : d.isDigit = true := by
              apply natToDigits_digits
              rw [hnd]
              exact List.mem_cons_self d ds
            try simp only [List.cons_append]
            rw [parseValStep_neg _ _ _ rfl hdg]
            rw [show (d :: (ds ++ rest)) = natToDigits n.natAbs ++ rest by rw [hnd]; rfl]
            rw [readDigits_natToDigits hrest]
            have hval : -((n.natAbs : Nat) : Int) = n := by omega
            rw [hval]
        · rw [if_neg hn]
          cases hnd : natToDigits n.natAbs with
          | nil => exact absurd hnd (natToDigits_ne_nil _)
          | cons d ds =>
            have hdg : d.isDigit = true := by
              apply natToDigits_digits
              rw [hnd]
              exact List.mem_cons_self d ds
            try simp only [List.cons_append]
            rw [parseValStep_num _ _ _ hdg]
            rw [show (d :: (ds ++ rest)) = natToDigits n.natAbs ++ rest by rw [hnd]; rfl]
            rw [readDigits_natToDigits hrest]
            have hval : ((n.natAbs : Nat) : Int) = n := by omega
            rw [hval]
      | str s0 =>
        injection hd with hd
        subst hd
        rw [show (('"' :: (escapeStr s0.data ++ ['"'])) ++ rest) =
            '"' :: (escapeStr s0.data ++ '"' :: rest) by simp]
        rw [parseValStep_str _ _ _ (parseStr_escape s0.data rest)]
      | bytes s0 => exact absurd hd (by rw [dumpsVal.eq_def]; simp)
      | list l =>
        obtain ⟨parts, hparts, hs⟩ := dumpsVal_list_inv hd
        subst hs
        cases l with
        | nil =>
          injection hparts with hparts
          subst hparts
          exact parseValStep_arr_close _ _ _ (dropSpaces_cons (by decide) rest)
        | cons e es =>
          obtain ⟨s0, ss2, hs0, hss2, hps⟩ := dumpsElems_cons_inv hparts
          subst hps
          obtain ⟨c0, cs0, hc0s, hc0sp, hc0br, -, -⟩ := dumpsVal_head hs0
          subst hc0s
          simp only [joinComma, List.length_cons, List.length_append,
            List.length_singleton, List.length_nil] at hlen
          rw [show (('[' :: (joinComma ((c0 :: cs0) :: ss2) ++ [']'])) ++ rest) =
              '[' :: (c0 :: (cs0 ++ (joinTail ss2 ++ ']' :: rest))) by
            simp [joinComma, List.append_assoc]]
          rw [parseValStep_arr_open _ _ _
            (dropSpaces_cons hc0sp (cs0 ++ (joinTail ss2 ++ ']' :: rest))) hc0br]
          rw [show c0 :: (cs0 ++ (joinTail ss2 ++ ']' :: rest)) =
              (c0 :: cs0) ++ (joinTail ss2 ++ ']' :: rest) from rfl]
          rw [ihV e (c0 :: cs0) _ hs0 (by simp; omega)
            (notDigitStart_sep ss2 (by decide) rest)]
          exact ihA es ss2 (.cons e .nil) rest hss2 (by omega) hrest
      | dict l =>
        obtain ⟨parts, hparts, hs⟩ := dumpsVal_dict_inv hd
        subst hs
        cases l with
        | nil =>
          injection hparts with hparts
          subst hparts
          exact parseValStep_obj_close _ _ _ (dropSpaces_cons (by decide) rest)
        | cons k v kvs =>
          obtain ⟨sv, ss2, hsv, hss2, hps⟩ := dumpsFields_cons_inv hparts
          subst hps
          simp only [joinComma, List.length_cons, List.length_append,
            List.length_singleton, List.length_nil] at hlen
          rw [show (('{' :: (joinComma (('"' :: (escapeStr k.data ++ ['"', ':', ' '] ++ sv)) :: ss2) ++
              ['}'])) ++ rest) =
              '{' :: ('"' :: ((escapeStr k.data ++ ['"', ':', ' '] ++ sv) ++
                (joinTail ss2 ++ '}' :: rest))) by
            simp [joinComma, List.append_assoc]]
          rw [parseValStep_obj_open _ _ _
            (dropSpaces_cons (show ('"' : Char) ≠ ' ' by decide)
              ((escapeStr k.data ++ ['"', ':', ' '] ++ sv) ++ (joinTail ss2 ++ '}' :: rest)))
            (show ('"' : Char) ≠ '}' by decide)]
          exact ihE k v kvs sv ss2 .nil rest hsv hss2 (by omega) (by omega) hrest
    · intro es ss acc rest hE hlen hrest
      rw [parseArrTail_succ]
      cases es with
      | nil =>
        injection hE with hE
        subst hE
        exact parseArrTailStep_close _ _ acc (dropSpaces_cons (by decide) rest)
      | cons e es2 =>
        obtain ⟨s0, ss2, hs0, hss2, hps⟩ := dumpsElems_cons_inv hE
        subst hps
        obtain ⟨c0, cs0, hc0s, hc0sp, -, -, -⟩ := dumpsVal_head hs0
        simp only [joinTail, List.length_cons, List.length_append, List.length_nil] at hlen
        rw [show (joinTail (s0 :: ss2) ++ ']' :: rest) =
            ',' :: (' ' :: ((s0 ++ joinTail ss2) ++ ']' :: rest)) from rfl]
        rw [parseArrTailStep_comma _ _ acc (dropSpaces_cons (by decide) _)]
        rw [dropSpaces_space]
        rw [show ((s0 ++ joinTail ss2) ++ ']' :: rest) =
            s0 ++ (joinTail ss2 ++ ']' :: rest) from List.append_assoc s0 _ _]
        rw [show dropSpaces (s0 ++ (joinTail ss2 ++ ']' :: rest)) =
            s0 ++ (joinTail ss2 ++ ']' :: rest) by
          subst hc0s
          exact dropSpaces_cons hc0sp _]
        rw [ihV e s0 _ hs0 (by omega) (notDigitStart_sep ss2 (by decide) rest)]
        exact ihA es2 ss2 (.cons e acc) rest hss2 (by omega) hrest
    · intro kvs ss acc rest hF hlen hrest
      rw [parseObjTail_succ]
      cases kvs with
      | nil =>
        injection hF with hF
        subst hF
        exact parseObjTailStep_close _ acc (dropSpaces_cons (by decide) rest)
      | cons k v kvs2 =>
        obtain ⟨sv, ss2, hsv, hss2, hps⟩ := dumpsFields_cons_inv hF
        subst hps
        simp only [joinTail, List.length_cons, List.length_append, List.length_nil] at hlen
        rw [show (joinTail (('"' :: (escapeStr k.data ++ ['"', ':', ' '] ++ sv)) :: ss2) ++
            '}' :: rest) =
            ',' :: (' ' :: ((('"' :: (escapeStr k.data ++ ['"', ':', ' '] ++ sv)) ++
              joinTail ss2) ++ '}' :: rest)) from rfl]
        rw [parseObjTailStep_comma _ acc (dropSpaces_cons (by decide) _)]
        rw [dropSpaces_space]
        rw [show ((('"' :: (escapeStr k.data ++ ['"', ':', ' '] ++ sv)) ++ joinTail ss2) ++
            '}' :: rest) =
            ('"' :: (escapeStr k.data ++ ['"', ':', ' '] ++ sv)) ++
              (joinTail ss2 ++ '}' :: rest) from List.append_assoc _ _ _]
        rw [show dropSpaces ((('"' :: (escapeStr k.data ++ ['"', ':', ' '] ++ sv))) ++
            (joinTail ss2 ++ '}' :: rest)) =
            ('"' :: (escapeStr k.data ++ ['"', ':', ' '] ++ sv)) ++
              (joinTail ss2 ++ '}' :: rest) from dropSpaces_cons (by decide) _]
        exact ihE k v kvs2 sv ss2 acc rest hsv hss2 (by omega) (by omega) hrest
    · intro k v kvs sv ss acc rest hsv hss hlsv hlss hrest
      rw [parseObjEntry_succ]
      rw [show (('"' :: (escapeStr k.data ++ ['"', ':', ' '] ++ sv)) ++
          (joinTail ss ++ '}' :: rest)) =
          '"' :: (escapeStr k.data ++
            '"' :: (':' :: (' ' :: (sv ++ (joinTail ss ++ '}' :: rest))))) by simp]
      rw [parseObjEntryStep_eq _ _ acc
        (parseStr_escape k.data (':' :: (' ' :: (sv ++ (joinTail ss ++ '}' :: rest)))))
        (dropSpaces_cons (by decide) (' ' :: (sv ++ (joinTail ss ++ '}' :: rest))))]
      rw [dropSpaces_space]
      obtain ⟨c0, cs0, hc0s, hc0sp, -, -, -⟩ := dumpsVal_head hsv
      rw [show dropSpaces (sv ++ (joinTail ss ++ '}' :: rest)) =
          sv ++ (joinTail ss ++ '}' :: rest) by
        subst hc0s
        exact dropSpaces_cons hc0sp _]
      rw [ihV v sv _ hsv (by omega) (notDigitStart_sep ss (by decide) rest)]
      exact ihO kvs ss (.cons (String.mk k.data) v acc) rest hss (by omega) hrest

theorem loads_dumps {v : PyVal} {s : List Char} (h : dumpsVal v = .ok s) :
    loads s = .ok v := by
  have hp := (parse_print (s.length + 1)).1 v s [] h (by omega) rfl
  rw [List.append_nil] at hp
  obtain ⟨c, cs, hcs, hsp, -, -, -⟩ := dumpsVal_head h
  subst hcs
  simp only [loads]
  rw [dropSpaces_cons hsp, hp]
  rfl

theorem bind_ok_inv {α β : Type} {x : Except PyErr α} {f : α → Except PyErr β} {b : β}
    (h : (x >>= f) = .ok b) : ∃ a, x = .ok a ∧ f a = .ok b := by
  cases x with
  | error e => exact absurd h (by simp [Bind.bind, Except.bind])
  | ok a => exact ⟨a, rfl, h⟩

theorem deserializer_jsonDumpsCell {v w : PyVal} (h : jsonDumpsCell v = .ok w) :
    deserializer w = .ok v := by
  unfold jsonDumpsCell at h
  cases hd : dumpsVal v with
  | error e => rw [hd] at h; exact absurd h (by simp)
  | ok s =>
    rw [hd] at h
    injection h with h
    subst h
    show loads (String.mk s).data = .ok v
    exact loads_dumps hd

theorem mapE_cons_inv {α β : Type} {f : α → Except PyErr β} {x : α} {xs : List α}
    {ys : List β} (h : mapE f (x :: xs) = .ok ys) :
    ∃ y ys2, f x = .ok y ∧ mapE f xs = .ok ys2 ∧ ys = y :: ys2 := by
  obtain ⟨y, hy, h2⟩ := bind_ok_inv h
  obtain ⟨ys2, hys2, h3⟩ := bind_ok_inv h2
  injection h3 with h3
  exact ⟨y, ys2, hy, hys2, h3.symm⟩

theorem mapE_nil_inv {α β : Type} {f : α → Except PyErr β} {ys : List β}
    (h : mapE f [] = .ok ys) : ys = [] := by
  injection h with h
  exact h.symm

theorem mapE_ok_forall {α β : Type} {f : α → Except PyErr β} :
    ∀ {xs : List α} {ys : List β}, mapE f xs = .ok ys → ∀ x ∈ xs, ∃ y, f x = .ok y := by
  intro xs
  induction xs with
  | nil => intro ys _ x hx; exact absurd hx (List.not_mem_nil x)
  | cons a as ih =>
    intro ys h x hx
    obtain ⟨y, ys2, hy, hys2, -⟩ := mapE_cons_inv h
    rcases List.mem_cons.mp hx with rfl | hx2
    · exact ⟨y, hy⟩
    · exact ih hys2 x hx2

theorem mapE_ok_comp {α β γ : Type} (f : α → Except PyErr β) (g : β → Except PyErr γ) :
    ∀ {xs : List α} {ys : List β}, mapE f xs = .ok ys →
      mapE g ys = mapE (fun x => f x >>= g) xs := by
  intro xs
  induction xs with
  | nil =>
    intro ys h
    rw [mapE_nil_inv h]
    rfl
  | cons a as ih =>
    intro ys h
    obtain ⟨y, ys2, hy, hys2, hcons⟩ := mapE_cons_inv h
    subst hcons
    show (g y >>= fun z => mapE g ys2 >>= fun zs => Except.ok (z :: zs)) =
      ((f a >>= g) >>= fun z =>
        mapE (fun x => f x >>= g) as >>= fun zs => Except.ok (z :: zs))
    rw [ih hys2, hy]
    rfl

theorem mapE_id {α : Type} {f : α → Except PyErr α} :
    ∀ {xs : List α}, (∀ x ∈ xs, f x = .ok x) → mapE f xs = .ok xs := by
  intro xs
  induction xs with
  | nil => intro _; rfl
  | cons a as ih =>
    intro h
    show (f a >>= fun y => mapE f as >>= fun ys => Except.ok (y :: ys)) = _
    rw [h a (List.mem_cons_self a as), ih (fun x hx => h x (List.mem_cons_of_mem a hx))]
    rfl

theorem mapE_round {α : Type} {f g : α → Except PyErr α}
    (hfg : ∀ x y, f x = .ok y → g y = .ok x) :
    ∀ {xs ys : List α}, mapE f xs = .ok ys → mapE g ys = .ok xs := by
  intro xs ys h
  rw [mapE_ok_comp f g h]
  apply mapE_id
  intro x hx
  obtain ⟨y, hy⟩ := mapE_ok_forall h x hx
  rw [hy]
  show g y = .ok x
  exact hfg x y hy

theorem mapE_comm {α : Type} {f g : α → Except PyErr α}
    (hfg : ∀ x y z, f x = .ok y → g y = .ok z → ∃ w, g x = .ok w ∧ f w = .ok z) :
    ∀ {xs ys zs : List α}, mapE f xs = .ok ys → mapE g ys = .ok zs →
      ∃ ws, mapE g xs = .ok ws ∧ mapE f ws = .ok zs := by
  intro xs
  induction xs with
  | nil =>
    intro ys zs h1 h2
    rw [mapE_nil_inv h1] at h2
    rw [mapE_nil_inv h2]
    exact ⟨[], rfl, rfl⟩
  | cons a as ih =>
    intro ys zs h1 h2
    obtain ⟨y, ys2, hy, hys2, hcons⟩ := mapE_cons_inv h1
    subst hcons
    obtain ⟨z, zs2, hz, hzs2, hcons2⟩ := mapE_cons_inv h2
    subst hcons2
    obtain ⟨w, hw1, hw2⟩ := hfg a y z hy hz
    obtain ⟨ws2, hws1, hws2⟩ := ih hys2 hzs2
    refine ⟨w :: ws2, ?_, ?_⟩
    · show (g a >>= fun u => mapE g as >>= fun us => Except.ok (u :: us)) = _
      rw [hw1, hws1]
      rfl
    · show (f w >>= fun u => mapE f ws2 >>= fun us => Except.ok (u :: us)) = _
      rw [hw2, hws2]
      rfl

theorem applyColE_round (c : String) {row row2 : PyRow}
    (h : applyColE jsonDumpsCell c row = .ok row2) :
    applyColE deserializer c row2 = .ok row := by
  refine mapE_round ?_ h
  intro kv kv2 hk
  dsimp only at hk ⊢
  by_cases hc : kv.1 = c
  · rw [if_pos hc] at hk
    obtain ⟨w, hw, he⟩ := bind_ok_inv hk
    injection he with he
    subst he
    rw [if_pos hc]
    rw [deserializer_jsonDumpsCell hw]
    rfl
  · rw [if_neg hc] at hk
    injection hk with hk
    subst hk
    rw [if_neg hc]

theorem colRows_round (c : String) {rows rows2 : List PyRow}
    (h : mapE (applyColE jsonDumpsCell c) rows = .ok rows2) :
    mapE (applyColE deserializer c) rows2 = .ok rows :=
  mapE_round (fun _ _ hr => applyColE_round c hr) h

theorem applyColE_comm {c d : String} (hcd : c ≠ d) {row row1 row2 : PyRow}
    (h1 : applyColE jsonDumpsCell c row = .ok row1)
    (h2 : applyColE jsonDumpsCell d row1 = .ok row2) :
    ∃ rowm, applyColE jsonDumpsCell d row = .ok rowm ∧
      applyColE jsonDumpsCell c rowm = .ok row2 := by
  refine mapE_comm ?_ h1 h2
  intro kv kv1 kv2 hk1 hk2
  dsimp only at hk1 hk2 ⊢
  by_cases hc : kv.1 = c
  · rw [if_pos hc] at hk1
    obtain ⟨w, hw, he⟩ := bind_ok_inv hk1
    injection he with he
    subst he
    rw [if_neg (show ¬((kv.1, w).1 = d) from by simp only [hc]; exact hcd)] at hk2
    injection hk2 with hk2
    subst hk2
    refine ⟨kv, ?_, ?_⟩
    · rw [if_neg (show ¬(kv.1 = d) from by rw [hc]; exact hcd)]
    · rw [if_pos hc, hw]
      rfl
  · rw [if_neg hc] at hk1
    injection hk1 with hk1
    subst hk1
    by_cases hd : kv.1 = d
    · rw [if_pos hd] at hk2
      obtain ⟨w, hw, he⟩ := bind_ok_inv hk2
      injection he with he
      subst he
      refine ⟨(kv.1, w), ?_, ?_⟩
      · rw [if_pos hd, hw]
        rfl
      · rw [if_neg (show ¬((kv.1, w).1 = c) from hc)]
    · rw [if_neg hd] at hk2
      injection hk2 with hk2
      subst hk2
      refine ⟨kv, ?_, ?_⟩
      · rw [if_neg hd]
      · rw [if_neg hc]

theorem colRows_comm {c d : String} (hcd : c ≠ d) {rows rows1 rows2 : List PyRow}
    (h1 : mapE (applyColE jsonDumpsCell c) rows = .ok rows1)
    (h2 : mapE (applyColE jsonDumpsCell d) rows1 = .ok rows2) :
    ∃ rowsm, mapE (applyColE jsonDumpsCell d) rows = .ok rowsm ∧
      mapE (applyColE jsonDumpsCell c) rowsm = .ok rows2 :=
  mapE_comm (fun _ _ _ ha hb => applyColE_comm hcd ha hb) h1 h2

theorem deserializeColRows_ok {c : String} {rows r : List PyRow}
    (h : mapE (applyColE deserializer c) rows = .ok r) :
    deserializeColRows c rows = .ok r := by
  unfold deserializeColRows
  rw [h]

theorem serializeCols_pull (c : String) : ∀ (cs : List String) {X r1 rows2 : List PyRow},
    mapE (applyColE jsonDumpsCell c) X = .ok r1 →
    serializeColsRows cs r1 = .ok rows2 →
    ∃ Y, serializeColsRows cs X = .ok Y ∧
      mapE (applyColE deserializer c) rows2 = .ok Y := by
  intro cs
  induction cs with
  | nil =>
    intro X r1 rows2 h1 h2
    injection h2 with h2
    subst h2
    exact ⟨X, rfl, colRows_round c h1⟩
  | cons d ds ih =>
    intro X r1 rows2 h1 h2
    obtain ⟨r2, hr2, hrest⟩ := bind_ok_inv
      (show (mapE (applyColE jsonDumpsCell d) r1 >>= fun r => serializeColsRows ds r) =
        .ok rows2 from h2)
    by_cases hdc : d = c
    · subst hdc
      obtain ⟨Y, hY1, hY2⟩ := ih hr2 hrest
      refine ⟨Y, ?_, hY2⟩
      show (mapE (applyColE jsonDumpsCell d) X >>= fun r => serializeColsRows ds r) = .ok Y
      rw [h1]
      exact hY1
    · obtain ⟨X2, hX2a, hX2b⟩ := colRows_comm (Ne.symm hdc) h1 hr2
      obtain ⟨Y, hY1, hY2⟩ := ih hX2b hrest
      refine ⟨Y, ?_, hY2⟩
      show (mapE (applyColE jsonDumpsCell d) X >>= fun r => serializeColsRows ds r) = .ok Y
      rw [hX2a]
      exact hY1

theorem roundTripRows : ∀ (cols : List String) {rows rows2 : List PyRow},
    serializeColsRows cols rows = .ok rows2 →
    deserializeColsRows cols rows2 = .ok rows := by
  intro cols
  induction cols with
  | nil =>
    intro rows rows2 h
    injection h with h
    subst h
    rfl
  | cons c cs ih =>
    intro rows rows2 h
    obtain ⟨r1, hr1, hrest⟩ := bind_ok_inv
      (show (mapE (applyColE jsonDumpsCell c) rows >>= fun r => serializeColsRows cs r) =
        .ok rows2 from h)
    obtain ⟨Y, hY1, hY2⟩ := serializeCols_pull c cs hr1 hrest
    show (deserializeColRows c rows2 >>= fun r => deserializeColsRows cs r) = .ok rows
    rw [deserializeColRows_ok hY2]
    exact ih hY1

/-- C2: for every table and set of JSON columns on which serialization
succeeds — i.e. whenever every value in those columns is JSON-encodable —
deserializing the result of serializing the table yields the original
table: `deserialize(serialize(table, C), C) == table`. -/
theorem c2_serialize_deserialize_round_trip (df : PyTable) (json_cols : List String)
    {df2 : PyTable} (h : serialize_json_cols df json_cols = .ok df2) :
    deserialize_json_cols_df df2 json_cols = .ok df := by
  unfold serialize_json_cols at h
  cases hs : serializeColsRows json_cols df.rows with
  | error e => rw [hs] at h; exact absurd h (by simp)
  | ok rs =>
    rw [hs] at h
    injection h with h
    subst h
    unfold deserialize_json_cols_df
    rw [show (PyTable.mk df.index rs).rows = rs from rfl]
    rw [roundTripRows json_cols hs]

/-- Witness for C2 at the spec example table `{id: "a", tags: ["x","y"]}`. -/
theorem c2_serialize_deserialize_round_trip_witness :
    deserialize_json_cols_df
        ⟨[.str "a"], [[("tags", .str "[\"x\", \"y\"]")]]⟩ ["tags"] =
      .ok ⟨[.str "a"],
        [[("tags", .list (.cons (.str "x") (.cons (.str "y") .nil)))]]⟩ :=
  c2_serialize_deserialize_round_trip
    ⟨[.str "a"], [[("tags", .list (.cons (.str "x") (.cons (.str "y") .nil)))]]⟩
    ["tags"] (by rfl)

/-- C9: for a non-empty table, JSON-column detection inspects only the first
row, and a column is in the detected set iff that row holds, under that
label, a mapping or ordered-sequence value that is not a string or byte
sequence. -/
theorem c9_detect_json_cols (df : PyTable) :
    (∀ row rest, df.rows = row :: rest →
      ∃ l, get_json_serializable_cols df = some l ∧
        ∀ c, c ∈ l ↔ ∃ v, (c, v) ∈ row ∧ isJsonSerializableVal v = true) ∧
    (∀ df2 : PyTable, df.rows.head? = df2.rows.head? →
      get_json_serializable_cols df = get_json_serializable_cols df2) := by
  constructor
  · intro row rest h
    refine ⟨(row.filter (fun kv => isJsonSerializableVal kv.2)).map Prod.fst, ?_, ?_⟩
    · simp [get_json_serializable_cols, h]
    · intro c
      constructor
      · intro hc
        obtain ⟨kv, hkv, hfst⟩ := List.mem_map.mp hc
        obtain ⟨hmem, hp⟩ := List.mem_filter.mp hkv
        refine ⟨kv.2, ?_, by simpa using hp⟩
        rw [← hfst]
        simpa using hmem
      · rintro ⟨v, hmem, hp⟩
        exact List.mem_map.mpr ⟨(c, v), List.mem_filter.mpr ⟨hmem, by simpa using hp⟩, rfl⟩
  · intro df2 hh
    cases h1 : df.rows with
    | nil =>
      cases h2 : df2.rows with
      | nil => simp [get_json_serializable_cols, h1, h2]
      | cons r2 rest2 => rw [h1, h2] at hh; exact absurd hh (by simp)
    | cons r1 rest1 =>
      cases h2 : df2.rows with
      | nil => rw [h1, h2] at hh; exact absurd hh (by simp)
      | cons r2 rest2 =>
        rw [h1, h2] at hh
        simp only [List.head?_cons, Option.some.injEq] at hh
        subst hh
        simp [get_json_serializable_cols, h1, h2]

/-- Witness for C9 on a one-row table with one nested and one scalar column. -/
theorem c9_detect_json_cols_witness :
    ∃ l, get_json_serializable_cols
        ⟨[.str "a"], [[("n", .int 1), ("tags", .list .nil)]]⟩ = some l ∧
      ∀ c, c ∈ l ↔ ∃ v, (c, v) ∈ [("n", PyVal.int 1), ("tags", PyVal.list .nil)] ∧
        isJsonSerializableVal v = true :=
  (c9_detect_json_cols ⟨[.str "a"], [[("n", .int 1), ("tags", .list .nil)]]⟩).1
    [("n", .int 1), ("tags", .list .nil)] [] rfl

/-- C10: a zero-row table makes JSON-column detection fail (the `next()` call
raises `StopIteration`), so `edit()` on an empty snapshot raises at the
detection step, before rendering the grid or making any store call. -/
theorem c10_empty_table (df widget_df : PyTable) (info : EditInfo)
    (storeFail : StoreCall → Bool) (st : ProcessedEdits) (h : df.rows = []) :
    get_json_serializable_cols df = Option.none ∧
    edit df widget_df info storeFail st = .raised .stopIteration [] st := by
  have hdet : get_json_serializable_cols df = Option.none := by
    simp [get_json_serializable_cols, h]
  refine ⟨hdet, ?_⟩
  unfold edit
  rw [hdet]

/-- Witness for C10 at the empty table. -/
theorem c10_empty_table_witness :
    get_json_serializable_cols ⟨[], []⟩ = Option.none ∧
    edit ⟨[], []⟩ ⟨[], []⟩ ⟨[], [], []⟩ noFail ⟨[], [], []⟩ =
      .raised .stopIteration [] ⟨[], [], []⟩ :=
  c10_empty_table ⟨[], []⟩ ⟨[], []⟩ ⟨[], [], []⟩ noFail ⟨[], [], []⟩ rfl

theorem applyColE_keys (f : PyVal → Except PyErr PyVal) (c : String) :
    ∀ {row out : PyRow}, applyColE f c row = .ok out →
      out.map Prod.fst = row.map Prod.fst := by
  intro row
  induction row with
  | nil =>
    intro out h
    rw [mapE_nil_inv h]
  | cons kv rest ih =>
    intro out h
    obtain ⟨y, ys2, hy, hys2, hcons⟩ := mapE_cons_inv h
    subst hcons
    have hyfst : y.1 = kv.1 := by
      by_cases hc : kv.1 = c
      · rw [if_pos hc] at hy
        obtain ⟨w, -, he⟩ := bind_ok_inv hy
        injection he with he
        subst he
        rfl
      · rw [if_neg hc] at hy
        injection hy with hy
        subst hy
        rfl
    simp only [List.map_cons, hyfst]
    rw [ih hys2]

theorem lookup_cons_pos {k : String} {v : PyVal} {rest : PyRow} {c : String}
    (h : k = c) : ((k, v) :: rest).lookup c = some v := by
  have hb : (c == k) = true := beq_iff_eq.mpr h.symm
  simp [List.lookup, hb]

theorem lookup_cons_neg {k : String} {v : PyVal} {rest : PyRow} {c : String}
    (h : ¬(k = c)) : ((k, v) :: rest).lookup c = rest.lookup c := by
  have hb : (c == k) = false := beq_eq_false_iff_ne.mpr (fun hc => h hc.symm)
  simp [List.lookup, hb]

theorem lookup_none_of_not_mem {c : String} :
    ∀ {row : PyRow}, c ∉ row.map Prod.fst → row.lookup c = Option.none := by
  intro row
  induction row with
  | nil => intro _; rfl
  | cons kv rest ih =>
    obtain ⟨k, v⟩ := kv
    intro h
    simp only [List.map_cons, List.mem_cons] at h
    push_neg at h
    rw [lookup_cons_neg (fun hc => h.1 hc.symm)]
    exact ih h.2

theorem applyColE_nil (f : PyVal → Except PyErr PyVal) (c : String) :
    applyColE f c [] = .ok [] := rfl

theorem applyColE_cons (f : PyVal → Except PyErr PyVal) (c : String)
    (kv : String × PyVal) (rest : PyRow) :
    applyColE f c (kv :: rest) =
      (if kv.1 = c then f kv.2 >>= fun w => Except.ok (kv.1, w) else Except.ok kv) >>=
        fun y => applyColE f c rest >>= fun ys => Except.ok (y :: ys) := rfl

theorem applyColE_untouched (f : PyVal → Except PyErr PyVal) {c c2 : String}
    (hcc : c2 ≠ c) : ∀ {row out : PyRow}, applyColE f c row = .ok out →
      out.lookup c2 = row.lookup c2 := by
  intro row
  induction row with
  | nil =>
    intro out h
    rw [mapE_nil_inv h]
  | cons kv rest ih =>
    obtain ⟨k, v⟩ := kv
    intro out h
    obtain ⟨y, ys2, hy, hys2, hcons⟩ := mapE_cons_inv h
    subst hcons
    dsimp only at hy
    by_cases hc : k = c
    · rw [if_pos hc] at hy
      obtain ⟨w, -, he⟩ := bind_ok_inv hy
      injection he with he
      subst he
      have hk2 : ¬(k = c2) := by rw [hc]; exact fun hcon => hcc hcon.symm
      rw [lookup_cons_neg hk2, lookup_cons_neg hk2]
      exact ih hys2
    · rw [if_neg hc] at hy
      injection hy with hy
      subst hy
      by_cases hk2 : k = c2
      · rw [lookup_cons_pos hk2, lookup_cons_pos hk2]
      · rw [lookup_cons_neg hk2, lookup_cons_neg hk2]
        exact ih hys2

theorem applyColE_none {f : PyVal → Except PyErr PyVal} {c : String} :
    ∀ {row : PyRow}, row.lookup c = Option.none → applyColE f c row = .ok row := by
  intro row
  induction row with
  | nil => intro _; rfl
  | cons kv rest ih =>
    obtain ⟨k, v⟩ := kv
    intro h
    by_cases hk : k = c
    · rw [lookup_cons_pos hk] at h
      exact absurd h (by simp)
    · rw [lookup_cons_neg hk] at h
      rw [applyColE_cons]
      dsimp only
      rw [if_neg hk, ih h]
      rfl

theorem applyColE_some {f : PyVal → Except PyErr PyVal} {c : String} :
    ∀ {row : PyRow}, (row.map Prod.fst).Nodup → ∀ {v w : PyVal},
      row.lookup c = some v → f v = .ok w →
      ∃ out, applyColE f c row = .ok out ∧ out.lookup c = some w := by
  intro row
  induction row with
  | nil =>
    intro _ v w h
    exact absurd h (by simp [List.lookup])
  | cons kv rest ih =>
    obtain ⟨k, v0⟩ := kv
    intro hnd v w hv hw
    by_cases hk : k = c
    · rw [lookup_cons_pos hk] at hv
      injection hv with hv
      subst hv
      have hknotin : k ∉ rest.map Prod.fst := by
        simp only [List.map_cons, List.nodup_cons] at hnd
        exact hnd.1
      have hrest : rest.lookup c = Option.none := by
        apply lookup_none_of_not_mem
        rw [← hk]
        exact hknotin
      refine ⟨(k, w) :: rest, ?_, lookup_cons_pos hk⟩
      rw [applyColE_cons]
      dsimp only
      rw [if_pos hk, hw, applyColE_none hrest]
      rfl
    · rw [lookup_cons_neg hk] at hv
      have hnd2 : (rest.map Prod.fst).Nodup := by
        simp only [List.map_cons, List.nodup_cons] at hnd
        exact hnd.2
      obtain ⟨out2, hout2, hlk2⟩ := ih hnd2 hv hw
      refine ⟨(k, v0) :: out2, ?_, ?_⟩
      · rw [applyColE_cons]
        dsimp only
        rw [if_neg hk, hout2]
        rfl
      · rw [lookup_cons_neg hk]
        exact hlk2

theorem applyColE_err {f : PyVal → Except PyErr PyVal} {c : String} :
    ∀ {row : PyRow}, ∀ {v : PyVal} {e : PyErr},
      row.lookup c = some v → f v = .error e →
      applyColE f c row = .error e := by
  intro row
  induction row with
  | nil =>
    intro v e h
    exact absurd h (by simp [List.lookup])
  | cons kv rest ih =>
    obtain ⟨k, v0⟩ := kv
    intro v e hv hw
    by_cases hk : k = c
    · rw [lookup_cons_pos hk] at hv
      injection hv with hv
      subst hv
      rw [applyColE_cons]
      dsimp only
      rw [if_pos hk, hw]
      rfl
    · rw [lookup_cons_neg hk] at hv
      rw [applyColE_cons]
      dsimp only
      rw [if_neg hk, ih hv hw]
      rfl

theorem isOk_exists {α : Type} {x : Except PyErr α} (h : x.isOk = true) :
    ∃ a, x = .ok a := by
  cases x with
  | ok a => exact ⟨a, rfl⟩
  | error e => exact absurd h (by simp [Except.isOk, Except.toBool])

theorem deserializeMapCol_none {c : String} {row : PyRow}
    (h : row.lookup c = Option.none) : deserializeMapCol c row = .ok row := by
  unfold deserializeMapCol
  rw [h]
  rfl

theorem deserializeMapCol_some {c : String} {row : PyRow} {v w : PyVal}
    (hnd : (row.map Prod.fst).Nodup) (hv : row.lookup c = some v)
    (hw : deserializer v = .ok w) :
    ∃ out, deserializeMapCol c row = .ok out ∧ out.lookup c = some w ∧
      out.map Prod.fst = row.map Prod.fst ∧
      ∀ c2, c2 ≠ c → out.lookup c2 = row.lookup c2 := by
  obtain ⟨out, hout, hlk⟩ := applyColE_some hnd hv hw
  refine ⟨out, ?_, hlk, applyColE_keys _ _ hout,
    fun c2 hc2 => applyColE_untouched _ hc2 hout⟩
  unfold deserializeMapCol
  rw [hv, hout]
  rfl

theorem deserializeMapCol_err {c : String} {row : PyRow} {v : PyVal}
    (hv : row.lookup c = some v) (hw : deserializer v = .error .decodeError) :
    deserializeMapCol c row = .error (.jsonError c) := by
  have happ : applyColE deserializer c row = .error .decodeError := applyColE_err hv hw
  unfold deserializeMapCol
  rw [hv, happ]
  rfl

theorem deserializeMapCol_ok_inv {c : String} {row out : PyRow}
    (h : deserializeMapCol c row = .ok out) :
    out = row ∨ applyColE deserializer c row = .ok out := by
  unfold deserializeMapCol at h
  by_cases hs : (row.lookup c).isSome
  · rw [if_pos hs] at h
    right
    cases happ : applyColE deserializer c row with
    | ok r =>
      rw [happ] at h
      injection h with h
      rw [h]
    | error e =>
      rw [happ] at h
      cases e <;> exact absurd h (by simp)
  · rw [if_neg hs] at h
    injection h with h
    exact Or.inl h.symm

theorem deserMap_nil (row : PyRow) : deserialize_json_cols_map row [] = .ok row := rfl

theorem deserMap_cons (row : PyRow) (c : String) (cs : List String) :
    deserialize_json_cols_map row (c :: cs) =
      deserializeMapCol c row >>= fun r1 => deserialize_json_cols_map r1 cs := rfl

theorem deserMap_untouched : ∀ (cols : List String) {row out : PyRow} {c : String},
    deserialize_json_cols_map row cols = .ok out → c ∉ cols →
    out.lookup c = row.lookup c := by
  intro cols
  induction cols with
  | nil =>
    intro row out c h _
    injection h with h
    rw [h]
  | cons d ds ih =>
    intro row out c h hc
    rw [deserMap_cons] at h
    obtain ⟨r1, hr1, hrest⟩ := bind_ok_inv h
    simp only [List.mem_cons] at hc
    push_neg at hc
    have h1 : r1.lookup c = row.lookup c := by
      rcases deserializeMapCol_ok_inv hr1 with heq | happ
      · rw [heq]
      · exact applyColE_untouched _ hc.1 happ
    rw [ih hrest hc.2, h1]

theorem deserMap_keys : ∀ (cols : List String) {row out : PyRow},
    deserialize_json_cols_map row cols = .ok out →
    out.map Prod.fst = row.map Prod.fst := by
  intro cols
  induction cols with
  | nil =>
    intro row out h
    injection h with h
    rw [h]
  | cons d ds ih =>
    intro row out h
    rw [deserMap_cons] at h
    obtain ⟨r1, hr1, hrest⟩ := bind_ok_inv h
    have h1 : r1.map Prod.fst = row.map Prod.fst := by
      rcases deserializeMapCol_ok_inv hr1 with heq | happ
      · rw [heq]
      · exact applyColE_keys _ _ happ
    rw [ih hrest, h1]

theorem deserMap_ok : ∀ (cols : List String), cols.Nodup → ∀ {row : PyRow},
    (row.map Prod.fst).Nodup →
    (∀ c ∈ cols, ∀ v, row.lookup c = some v → (deserializer v).isOk = true) →
    ∃ out, deserialize_json_cols_map row cols = .ok out ∧
      (∀ c ∈ cols, ∀ v, row.lookup c = some v →
        ∃ w, deserializer v = .ok w ∧ out.lookup c = some w) ∧
      (∀ c, c ∉ cols → out.lookup c = row.lookup c) ∧
      out.map Prod.fst = row.map Prod.fst := by
  intro cols
  induction cols with
  | nil =>
    intro _ row hnd _
    exact ⟨row, rfl, fun c hc => absurd hc (List.not_mem_nil c), fun _ _ => rfl, rfl⟩
  | cons c cs ih =>
    intro hndcols row hnd hok
    have hcnotin : c ∉ cs := (List.nodup_cons.mp hndcols).1
    have hndcs : cs.Nodup := (List.nodup_cons.mp hndcols).2
    cases hval : row.lookup c with
    | none =>
      have hstep : deserializeMapCol c row = .ok row := deserializeMapCol_none hval
      obtain ⟨out, hout, hii, hiii, hkeys⟩ := ih hndcs hnd
        (fun c2 hc2 v hv => hok c2 (List.mem_cons_of_mem c hc2) v hv)
      refine ⟨out, ?_, ?_, ?_, hkeys⟩
      · rw [deserMap_cons, hstep]
        exact hout
      · intro c2 hc2 v hv
        rcases List.mem_cons.mp hc2 with rfl | hc2m
        · rw [hval] at hv
          exact absurd hv (by simp)
        · exact hii c2 hc2m v hv
      · intro c2 hc2
        simp only [List.mem_cons] at hc2
        push_neg at hc2
        exact hiii c2 hc2.2
    | some v =>
      obtain ⟨w, hw⟩ := isOk_exists (hok c (List.mem_cons_self c cs) v hval)
      obtain ⟨out1, hstep, hlk1, hkeys1, hunt1⟩ := deserializeMapCol_some hnd hval hw
      have hnd1 : (out1.map Prod.fst).Nodup := by rw [hkeys1]; exact hnd
      have hok1 : ∀ c2 ∈ cs, ∀ v2, out1.lookup c2 = some v2 →
          (deserializer v2).isOk = true := by
        intro c2 hc2 v2 hv2
        have hne : c2 ≠ c := fun hcon => hcnotin (hcon ▸ hc2)
        rw [hunt1 c2 hne] at hv2
        exact hok c2 (List.mem_cons_of_mem c hc2) v2 hv2
      obtain ⟨out, hout, hii, hiii, hkeys⟩ := ih hndcs hnd1 hok1
      refine ⟨out, ?_, ?_, ?_, by rw [hkeys, hkeys1]⟩
      · rw [deserMap_cons, hstep]
        exact hout
      · intro c2 hc2 v2 hv2
        rcases List.mem_cons.mp hc2 with rfl | hc2m
        · rw [hval] at hv2
          injection hv2 with hv2
          subst hv2
          refine ⟨w, hw, ?_⟩
          rw [deserMap_untouched cs hout hcnotin]
          exact hlk1
        · have hne : c2 ≠ c := fun hcon => hcnotin (hcon ▸ hc2m)
          have : out1.lookup c2 = some v2 := by rw [hunt1 c2 hne]; exact hv2
          exact hii c2 hc2m v2 this
      · intro c2 hc2
        simp only [List.mem_cons] at hc2
        push_neg at hc2
        rw [hiii c2 hc2.2, hunt1 c2 hc2.1]

theorem deserMap_fail : ∀ (pre : List String) (post : List String) (c : String),
    ∀ {row : PyRow} {v : PyVal},
    (row.map Prod.fst).Nodup → pre.Nodup → c ∉ pre →
    (∀ c2 ∈ pre, ∀ v2, row.lookup c2 = some v2 → (deserializer v2).isOk = true) →
    row.lookup c = some v → deserializer v = .error .decodeError →
    deserialize_json_cols_map row (pre ++ c :: post) = .error (.jsonError c) := by
  intro pre
  induction pre with
  | nil =>
    intro post c row v _ _ _ _ hv hw
    rw [List.nil_append, deserMap_cons, deserializeMapCol_err hv hw]
    rfl
  | cons d ds ih =>
    intro post c row v hnd hndpre hcpre hok hv hw
    have hdds : d ∉ ds := (List.nodup_cons.mp hndpre).1
    have hndds : ds.Nodup := (List.nodup_cons.mp hndpre).2
    simp only [List.mem_cons] at hcpre
    push_neg at hcpre
    rw [List.cons_append, deserMap_cons]
    cases hval : row.lookup d with
    | none =>
      rw [deserializeMapCol_none hval]
      show deserialize_json_cols_map row (ds ++ c :: post) = _
      exact ih post c hnd hndds hcpre.2
        (fun c2 hc2 v2 hv2 => hok c2 (List.mem_cons_of_mem d hc2) v2 hv2) hv hw
    | some vd =>
      obtain ⟨wd, hwd⟩ := isOk_exists (hok d (List.mem_cons_self d ds) vd hval)
      obtain ⟨out1, hstep, -, hkeys1, hunt1⟩ := deserializeMapCol_some hnd hval hwd
      rw [hstep]
      show deserialize_json_cols_map out1 (ds ++ c :: post) = _
      have hnd1 : (out1.map Prod.fst).Nodup := by rw [hkeys1]; exact hnd
      have hok1 : ∀ c2 ∈ ds, ∀ v2, out1.lookup c2 = some v2 →
          (deserializer v2).isOk = true := by
        intro c2 hc2 v2 hv2
        have hne : c2 ≠ d := fun hcon => hdds (hcon ▸ hc2)
        rw [hunt1 c2 hne] at hv2
        exact hok c2 (List.mem_cons_of_mem d hc2) v2 hv2
      have hv1 : out1.lookup c = some v := by
        rw [hunt1 c (fun hcon => hcpre.1 hcon)]
        exact hv
      exact ih post c hnd1 hndds hcpre.2 hok1 hv1 hw

/-- C5: `_deserialize_json_cols` on a diff-entry mapping parses each JSON
column present back to a structured value, passes a null value through as
null, leaves absent and non-JSON columns alone — and, when a present
column's text is not valid encoded data, fails with a `JSONError` carrying
the offending column's name, propagating the error to the caller instead of
substituting a default value. -/
theorem c5_deserialize_map_behavior :
    (∀ (row : PyRow) (cols : List String),
      (row.map Prod.fst).Nodup → cols.Nodup →
      (∀ c ∈ cols, ∀ v, row.lookup c = some v → (deserializer v).isOk = true) →
      ∃ out, deserialize_json_cols_map row cols = .ok out ∧
        (∀ c ∈ cols, ∀ v, row.lookup c = some v →
          ∃ w, deserializer v = .ok w ∧ out.lookup c = some w) ∧
        (∀ c ∈ cols, row.lookup c = some PyVal.none →
          out.lookup c = some PyVal.none) ∧
        (∀ c, c ∉ cols → out.lookup c = row.lookup c) ∧
        out.map Prod.fst = row.map Prod.fst) ∧
    (∀ (row : PyRow) (pre post : List String) (c : String) (v : PyVal),
      (row.map Prod.fst).Nodup → pre.Nodup → c ∉ pre →
      (∀ c2 ∈ pre, ∀ v2, row.lookup c2 = some v2 → (deserializer v2).isOk = true) →
      row.lookup c = some v → deserializer v = .error .decodeError →
      deserialize_json_cols_map row (pre ++ c :: post) = .error (.jsonError c)) := by
  constructor
  · intro row cols hnd hndc hok
    obtain ⟨out, hout, hii, hiii, hkeys⟩ := deserMap_ok cols hndc hnd hok
    refine ⟨out, hout, hii, ?_, hiii, hkeys⟩
    intro c hc hvnone
    obtain ⟨w, hw, hlk⟩ := hii c hc PyVal.none hvnone
    injection hw with hw
    subst hw
    exact hlk
  · intro row pre post c v hnd hndpre hcpre hok hv hw
    exact deserMap_fail pre post c hnd hndpre hcpre hok hv hw

/-- Witness for C5: a valid JSON text column round-trips, and the malformed
text from the spec example yields a `JSONError` naming the column. -/
theorem c5_deserialize_map_behavior_witness :
    (∃ out, deserialize_json_cols_map [("tags", PyVal.str "[1]")] ["tags"] = .ok out ∧
      (∀ c ∈ ["tags"], ∀ v, List.lookup c [("tags", PyVal.str "[1]")] = some v →
        ∃ w, deserializer v = .ok w ∧ out.lookup c = some w) ∧
      (∀ c ∈ ["tags"], List.lookup c [("tags", PyVal.str "[1]")] = some PyVal.none →
        out.lookup c = some PyVal.none) ∧
      (∀ c, c ∉ ["tags"] →
        out.lookup c = List.lookup c [("tags", PyVal.str "[1]")]) ∧
      out.map Prod.fst = [("tags", PyVal.str "[1]")].map Prod.fst) ∧
    deserialize_json_cols_map [("tags", PyVal.str (String.mk ['\x7b', 'b', 'a', 'd']))]
        ["tags"] = .error (.jsonError "tags") := by
  constructor
  · refine c5_deserialize_map_behavior.1 [("tags", PyVal.str "[1]")] ["tags"]
      (by decide) (by decide) ?_
    intro c hc v hv
    simp only [List.mem_singleton] at hc
    subst hc
    rw [show List.lookup "tags" [("tags", PyVal.str "[1]")] =
        some (PyVal.str "[1]") from rfl] at hv
    injection hv with hv
    subst hv
    rfl
  · refine c5_deserialize_map_behavior.2
      [("tags", PyVal.str (String.mk ['\x7b', 'b', 'a', 'd']))] [] []
      "tags" (PyVal.str (String.mk ['\x7b', 'b', 'a', 'd']))
      (by decide) (by decide) (by simp) ?_ rfl rfl
    intro c2 hc2
    exact absurd hc2 (List.not_mem_nil c2)

theorem forall₂_of_mapE {α β : Type} {f : α → Except PyErr β} :
    ∀ {xs : List α} {ys : List β}, mapE f xs = .ok ys →
      List.Forall₂ (fun x y => f x = .ok y) xs ys := by
  intro xs
  induction xs with
  | nil =>
    intro ys h
    rw [mapE_nil_inv h]
    exact List.Forall₂.nil
  | cons a as ih =>
    intro ys h
    obtain ⟨y, ys2, hy, hys2, hcons⟩ := mapE_cons_inv h
    subst hcons
    exact List.Forall₂.cons hy (ih hys2)

theorem serializeRowCols_cons (c : String) (cs : List String) (row : PyRow) :
    serializeRowCols (c :: cs) row =
      applyColE jsonDumpsCell c row >>= fun r1 => serializeRowCols cs r1 := rfl

theorem forall₂_comp_rel {α β γ : Type} {R : α → β → Prop} {S : β → γ → Prop} :
    ∀ {xs : List α} {ys : List β} {zs : List γ},
      List.Forall₂ R xs ys → List.Forall₂ S ys zs →
      List.Forall₂ (fun x z => ∃ y, R x y ∧ S y z) xs zs := by
  intro xs ys zs h1
  induction h1 generalizing zs with
  | nil =>
    intro h2
    cases h2
    exact List.Forall₂.nil
  | cons hR hRs ih =>
    intro h2
    cases h2 with
    | cons hS hSs => exact List.Forall₂.cons ⟨_, hR, hS⟩ (ih hSs)

theorem serializeColsRows_forall₂ : ∀ (cols : List String) {rows rows2 : List PyRow},
    serializeColsRows cols rows = .ok rows2 →
    List.Forall₂ (fun row row2 => serializeRowCols cols row = .ok row2) rows rows2 := by
  intro cols
  induction cols with
  | nil =>
    intro rows rows2 h
    injection h with h
    subst h
    induction rows with
    | nil => exact List.Forall₂.nil
    | cons r rs ihr => exact List.Forall₂.cons rfl ihr
  | cons c cs ih =>
    intro rows rows2 h
    obtain ⟨r1, hr1, hrest⟩ := bind_ok_inv
      (show (mapE (applyColE jsonDumpsCell c) rows >>= fun r => serializeColsRows cs r) =
        .ok rows2 from h)
    refine (forall₂_comp_rel (forall₂_of_mapE hr1) (ih hrest)).imp ?_
    rintro row row2 ⟨mid, hmid, hfold⟩
    rw [serializeRowCols_cons, hmid]
    exact hfold

theorem jsonDumpsCell_inv {v w : PyVal} (h : jsonDumpsCell v = .ok w) :
    ∃ s, dumpsVal v = .ok s ∧ w = .str (String.mk s) := by
  unfold jsonDumpsCell at h
  cases hd : dumpsVal v with
  | error e => rw [hd] at h; exact absurd h (by simp)
  | ok s =>
    rw [hd] at h
    injection h with h
    exact ⟨s, rfl, h.symm⟩

theorem applyColE_lookup {f : PyVal → Except PyErr PyVal} {c : String} :
    ∀ {row out : PyRow}, applyColE f c row = .ok out →
      ∀ {v : PyVal}, row.lookup c = some v → ∃ w, f v = .ok w ∧ out.lookup c = some w := by
  intro row
  induction row with
  | nil =>
    intro out h v hv
    exact absurd hv (by simp [List.lookup])
  | cons kv rest ih =>
    obtain ⟨k, v0⟩ := kv
    intro out h v hv
    obtain ⟨y, ys2, hy, hys2, hcons⟩ := mapE_cons_inv h
    subst hcons
    dsimp only at hy
    by_cases hk : k = c
    · rw [lookup_cons_pos hk] at hv
      injection hv with hv
      subst hv
      rw [if_pos hk] at hy
      obtain ⟨w, hw, he⟩ := bind_ok_inv hy
      injection he with he
      subst he
      exact ⟨w, hw, lookup_cons_pos hk⟩
    · rw [lookup_cons_neg hk] at hv
      rw [if_neg hk] at hy
      injection hy with hy
      subst hy
      obtain ⟨w, hw, hlk⟩ := ih hys2 hv
      exact ⟨w, hw, by rw [lookup_cons_neg hk]; exact hlk⟩

theorem rowFold_untouched : ∀ (cols : List String) {row out : PyRow} {c : String},
    serializeRowCols cols row = .ok out → c ∉ cols → out.lookup c = row.lookup c := by
  intro cols
  induction cols with
  | nil =>
    intro row out c h _
    injection h with h
    rw [h]
  | cons d ds ih =>
    intro row out c h hc
    rw [serializeRowCols_cons] at h
    obtain ⟨r1, hr1, hrest⟩ := bind_ok_inv h
    simp only [List.mem_cons] at hc
    push_neg at hc
    rw [ih hrest hc.2, applyColE_untouched _ hc.1 hr1]

theorem rowFold_spec : ∀ (cols : List String), cols.Nodup → ∀ {row out : PyRow},
    serializeRowCols cols row = .ok out →
    (∀ c ∈ cols, ∀ v, row.lookup c = some v →
      ∃ s, dumpsVal v = .ok s ∧ out.lookup c = some (.str (String.mk s))) ∧
    (∀ c, c ∉ cols → out.lookup c = row.lookup c) ∧
    out.map Prod.fst = row.map Prod.fst := by
  intro cols
  induction cols with
  | nil =>
    intro _ row out h
    injection h with h
    subst h
    exact ⟨fun c hc => absurd hc (List.not_mem_nil c), fun _ _ => rfl, rfl⟩
  | cons c cs ih =>
    intro hndc row out h
    have hcnotin : c ∉ cs := (List.nodup_cons.mp hndc).1
    have hndcs : cs.Nodup := (List.nodup_cons.mp hndc).2
    rw [serializeRowCols_cons] at h
    obtain ⟨r1, hr1, hrest⟩ := bind_ok_inv h
    obtain ⟨hii, hiii, hkeys⟩ := ih hndcs hrest
    refine ⟨?_, ?_, ?_⟩
    · intro c2 hc2 v hv
      rcases List.mem_cons.mp hc2 with rfl | hc2m
      · obtain ⟨w, hw, hlk1⟩ := applyColE_lookup hr1 hv
        obtain ⟨s, hs, hws⟩ := jsonDumpsCell_inv hw
        subst hws
        refine ⟨s, hs, ?_⟩
        rw [rowFold_untouched cs hrest hcnotin]
        exact hlk1
      · have hne : c2 ≠ c := fun hcon => hcnotin (hcon ▸ hc2m)
        have hv1 : r1.lookup c2 = some v := by
          rw [applyColE_untouched _ hne hr1]
          exact hv
        exact hii c2 hc2m v hv1
    · intro c2 hc2
      simp only [List.mem_cons] at hc2
      push_neg at hc2
      rw [hiii c2 hc2.2, applyColE_untouched _ hc2.1 hr1]
    · rw [hkeys, applyColE_keys _ _ hr1]

theorem heap_set_concat : ∀ (h : Heap) (g t : PyTable),
    (h ++ [g]).set h.length t = h ++ [t] := by
  intro h g t
  induction h with
  | nil => rfl
  | cons a h2 ih =>
    show a :: ((h2 ++ [g]).set h2.length t) = a :: (h2 ++ [t])
    rw [ih]

theorem heapGet_concat_self : ∀ (h : Heap) (t : PyTable),
    heapGet (h ++ [t]) h.length = t := by
  intro h t
  induction h with
  | nil => rfl
  | cons a h2 ih => exact ih

theorem heapGet_append_lt : ∀ {h : Heap} {i : Nat}, i < h.length → ∀ (l2 : Heap),
    heapGet (h ++ l2) i = heapGet h i := by
  intro h
  induction h with
  | nil => intro i hi; simp at hi
  | cons a h2 ih =>
    intro i hi l2
    cases i with
    | zero => rfl
    | succ j => exact ih (by simpa using hi) l2

/-- C6: serialization replaces each JSON column's value with its canonical
text encoding in every row (leaving other columns and the index alone), and
the serialize step of `edit()` operates on a copy, so the session snapshot
object is unchanged afterward: in the heap model, the snapshot reference
still holds its old table and the display is a fresh reference holding the
serialized copy. -/
theorem c6_serialize_replaces_and_preserves_snapshot :
    (∀ (df df2 : PyTable) (json_cols : List String), json_cols.Nodup →
      serialize_json_cols df json_cols = .ok df2 →
      df2.index = df.index ∧
      List.Forall₂ (fun row row2 =>
        (∀ c ∈ json_cols, ∀ v, row.lookup c = some v →
          ∃ s, dumpsVal v = .ok s ∧ row2.lookup c = some (.str (String.mk s))) ∧
        (∀ c, c ∉ json_cols → row2.lookup c = row.lookup c) ∧
        row2.map Prod.fst = row.map Prod.fst) df.rows df2.rows) ∧
    (∀ (h : Heap) (dfRef : Nat) (json_cols : List String) (h2 : Heap) (r2 : Nat),
      dfRef < h.length →
      editSerializeStep h dfRef json_cols = .ok (h2, r2) →
      heapGet h2 dfRef = heapGet h dfRef ∧ r2 ≠ dfRef ∧
      serialize_json_cols (heapGet h dfRef) json_cols = .ok (heapGet h2 r2)) := by
  constructor
  · intro df df2 json_cols hndc h
    unfold serialize_json_cols at h
    cases hs : serializeColsRows json_cols df.rows with
    | error e => rw [hs] at h; exact absurd h (by simp)
    | ok rs =>
      rw [hs] at h
      injection h with h
      subst h
      refine ⟨rfl, ?_⟩
      show List.Forall₂ _ df.rows rs
      refine (serializeColsRows_forall₂ json_cols hs).imp ?_
      intro row row2 hfold
      exact rowFold_spec json_cols hndc hfold
  · intro h dfRef json_cols h2 r2 hlt hstep
    unfold editSerializeStep heapCopy at hstep
    dsimp only at hstep
    cases hsip : serializeInPlace (h ++ [heapGet h dfRef]) h.length json_cols with
    | error e => rw [hsip] at hstep; exact absurd hstep (by simp)
    | ok h3 =>
      rw [hsip] at hstep
      injection hstep with hstep
      rw [Prod.mk.injEq] at hstep
      obtain ⟨hh2, hr2⟩ := hstep
      subst hh2
      subst hr2
      unfold serializeInPlace at hsip
      rw [heapGet_concat_self] at hsip
      cases hs : serialize_json_cols (heapGet h dfRef) json_cols with
      | error e => rw [hs] at hsip; exact absurd hsip (by simp)
      | ok t =>
        rw [hs] at hsip
        injection hsip with hsip
        subst hsip
        rw [heap_set_concat]
        refine ⟨heapGet_append_lt hlt [t], by omega, ?_⟩
        rw [heapGet_concat_self]

/-- Witness for C6: a one-object heap whose table gets copied and serialized;
the original reference is unchanged and the copy holds the encoded table. -/
theorem c6_serialize_replaces_and_preserves_snapshot_witness :
    heapGet [⟨[.str "a"], [[("tags", .list (.cons (.str "x") .nil))]]⟩,
        ⟨[.str "a"], [[("tags", .str "[\"x\"]")]]⟩] 0 =
      heapGet [⟨[.str "a"], [[("tags", .list (.cons (.str "x") .nil))]]⟩] 0 ∧
    (1 : Nat) ≠ 0 ∧
    serialize_json_cols
        (heapGet [⟨[.str "a"], [[("tags", .list (.cons (.str "x") .nil))]]⟩] 0)
        ["tags"] =
      .ok (heapGet [⟨[.str "a"], [[("tags", .list (.cons (.str "x") .nil))]]⟩,
        ⟨[.str "a"], [[("tags", .str "[\"x\"]")]]⟩] 1) :=
  (c6_serialize_replaces_and_preserves_snapshot).2
    [⟨[.str "a"], [[("tags", .list (.cons (.str "x") .nil))]]⟩] 0 ["tags"]
    [⟨[.str "a"], [[("tags", .list (.cons (.str "x") .nil))]]⟩,
      ⟨[.str "a"], [[("tags", .str "[\"x\"]")]]⟩] 1
    (by decide) (by rfl)

theorem runDeleted_nil (df : PyTable) (sf : StoreCall → Bool) (st : ProcessedEdits)
    (calls : List StoreCall) : runDeleted df sf [] st calls = ⟨calls, st, Option.none⟩ := rfl

theorem runDeleted_cons_none {df : PyTable} {idx : Nat} (sf : StoreCall → Bool)
    (h : df.index[idx]? = Option.none) (rest : List Nat) (st : ProcessedEdits)
    (calls : List StoreCall) :
    runDeleted df sf (idx :: rest) st calls = ⟨calls, st, some .indexError⟩ := by
  rw [runDeleted.eq_def]
  simp [h]

theorem runDeleted_cons_mem {df : PyTable} {idx : Nat} {key : PyVal}
    {st : ProcessedEdits} (sf : StoreCall → Bool) (h : df.index[idx]? = some key)
    (hm : key ∈ st.deleted_rows) (rest : List Nat) (calls : List StoreCall) :
    runDeleted df sf (idx :: rest) st calls = runDeleted df sf rest st calls := by
  rw [runDeleted.eq_def]
  simp [h, hm]

theorem runDeleted_cons_fail {df : PyTable} {idx : Nat} {key : PyVal}
    {st : ProcessedEdits} {sf : StoreCall → Bool} (h : df.index[idx]? = some key)
    (hm : key ∉ st.deleted_rows) (hsf : sf (.del_item key) = true)
    (rest : List Nat) (calls : List StoreCall) :
    runDeleted df sf (idx :: rest) st calls =
      ⟨calls ++ [.del_item key], st, some .storeError⟩ := by
  rw [runDeleted.eq_def]
  simp [h, hm, hsf]

theorem runDeleted_cons_call {df : PyTable} {idx : Nat} {key : PyVal}
    {st : ProcessedEdits} {sf : StoreCall → Bool} (h : df.index[idx]? = some key)
    (hm : key ∉ st.deleted_rows) (hsf : sf (.del_item key) = false)
    (rest : List Nat) (calls : List StoreCall) :
    runDeleted df sf (idx :: rest) st calls =
      runDeleted df sf rest ⟨st.edited_rows, st.added_rows, st.deleted_rows ++ [key]⟩
        (calls ++ [.del_item key]) := by
  rw [runDeleted.eq_def]
  simp [h, hm, hsf]

theorem runEdited_nil (df : PyTable) (cols : List String) (sf : StoreCall → Bool)
    (st : ProcessedEdits) (calls : List StoreCall) :
    runEdited df cols sf [] st calls = ⟨calls, st, Option.none⟩ := rfl

theorem runEdited_cons_noidx {df : PyTable} {idx : Nat} (cols : List String)
    (sf : StoreCall → Bool) (h : df.index[idx]? = Option.none) (erow : PyRow)
    (rest : List (Nat × PyRow)) (st : ProcessedEdits) (calls : List StoreCall) :
    runEdited df cols sf ((idx, erow) :: rest) st calls = ⟨calls, st, some .indexError⟩ := by
  rw [runEdited.eq_def]
  simp [h]

theorem runEdited_cons_err {df : PyTable} {idx : Nat} {erow : PyRow} {cols : List String}
    {key : PyVal} {e : PyErr} (sf : StoreCall → Bool) (hix : df.index[idx]? = some key)
    (hd : deserialize_json_cols_map erow cols = .error e)
    (rest : List (Nat × PyRow)) (st : ProcessedEdits) (calls : List StoreCall) :
    runEdited df cols sf ((idx, erow) :: rest) st calls = ⟨calls, st, some e⟩ := by
  rw [runEdited.eq_def]
  simp [hix, hd]

theorem runEdited_cons_skip {df : PyTable} {idx : Nat} {erow : PyRow} {cols : List String}
    {key : PyVal} {d : PyRow} {st : ProcessedEdits} (sf : StoreCall → Bool)
    (hix : df.index[idx]? = some key)
    (hd : deserialize_json_cols_map erow cols = .ok d)
    (hlk : st.edited_rows.lookup idx = some d)
    (rest : List (Nat × PyRow)) (calls : List StoreCall) :
    runEdited df cols sf ((idx, erow) :: rest) st calls =
      runEdited df cols sf rest st calls := by
  rw [runEdited.eq_def]
  simp [hix, hd, hlk]

theorem runEdited_cons_fail {df : PyTable} {idx : Nat} {erow : PyRow} {cols : List String}
    {key : PyVal} {d : PyRow} {st : ProcessedEdits} {sf : StoreCall → Bool}
    (hix : df.index[idx]? = some key)
    (hd : deserialize_json_cols_map erow cols = .ok d)
    (hlk : ¬(st.edited_rows.lookup idx = some d))
    (hsf : sf (.modify_item key d) = true)
    (rest : List (Nat × PyRow)) (calls : List StoreCall) :
    runEdited df cols sf ((idx, erow) :: rest) st calls =
      ⟨calls ++ [.modify_item key d], st, some .storeError⟩ := by
  rw [runEdited.eq_def]
  simp [hix, hd, hlk, hsf]

theorem runEdited_cons_call {df : PyTable} {idx : Nat} {erow : PyRow} {cols : List String}
    {key : PyVal} {d : PyRow} {st : ProcessedEdits} {sf : StoreCall → Bool}
    (hix : df.index[idx]? = some key)
    (hd : deserialize_json_cols_map erow cols = .ok d)
    (hlk : ¬(st.edited_rows.lookup idx = some d))
    (hsf : sf (.modify_item key d) = false)
    (rest : List (Nat × PyRow)) (calls : List StoreCall) :
    runEdited df cols sf ((idx, erow) :: rest) st calls =
      runEdited df cols sf rest
        ⟨updateAssoc st.edited_rows idx d, st.added_rows, st.deleted_rows⟩
        (calls ++ [.modify_item key d]) := by
  rw [runEdited.eq_def]
  simp [hix, hd, hlk, hsf]

theorem runAdded_nil (cols : List String) (sf : StoreCall → Bool)
    (st : ProcessedEdits) (calls : List StoreCall) :
    runAdded cols sf [] st calls = ⟨calls, st, Option.none⟩ := rfl

theorem runAdded_cons_err {arow : PyRow} {cols : List String} {e : PyErr}
    (sf : StoreCall → Bool) (hd : deserialize_json_cols_map arow cols = .error e)
    (rest : List PyRow) (st : ProcessedEdits) (calls : List StoreCall) :
    runAdded cols sf (arow :: rest) st calls = ⟨calls, st, some e⟩ := by
  rw [runAdded.eq_def]
  simp [hd]

theorem runAdded_cons_nokey {arow : PyRow} {cols : List String} {d : PyRow}
    (sf : StoreCall → Bool) (hd : deserialize_json_cols_map arow cols = .ok d)
    (hk : d.lookup "_index" = Option.none)
    (rest : List PyRow) (st : ProcessedEdits) (calls : List StoreCall) :
    runAdded cols sf (arow :: rest) st calls = ⟨calls, st, some .keyError⟩ := by
  rw [runAdded.eq_def]
  simp [hd, hk]

theorem runAdded_cons_badrepr {arow : PyRow} {cols : List String} {d : PyRow}
    {keys : PyVal} {e : PyErr} (sf : StoreCall → Bool)
    (hd : deserialize_json_cols_map arow cols = .ok d)
    (hk : d.lookup "_index" = some keys)
    (hr : added_row_repr (eraseKey "_index" d) = .error e)
    (rest : List PyRow) (st : ProcessedEdits) (calls : List StoreCall) :
    runAdded cols sf (arow :: rest) st calls = ⟨calls, st, some e⟩ := by
  rw [runAdded.eq_def]
  simp [hd, hk, hr]

theorem runAdded_cons_skip {arow : PyRow} {cols : List String} {d : PyRow}
    {keys : PyVal} {rep : List Char} {st : ProcessedEdits} (sf : StoreCall → Bool)
    (hd : deserialize_json_cols_map arow cols = .ok d)
    (hk : d.lookup "_index" = some keys)
    (hr : added_row_repr (eraseKey "_index" d) = .ok rep)
    (hm : rep ∈ st.added_rows)
    (rest : List PyRow) (calls : List StoreCall) :
    runAdded cols sf (arow :: rest) st calls = runAdded cols sf rest st calls := by
  rw [runAdded.eq_def]
  simp [hd, hk, hr, hm]

theorem runAdded_cons_fail {arow : PyRow} {cols : List String} {d : PyRow}
    {keys : PyVal} {rep : List Char} {st : ProcessedEdits} {sf : StoreCall → Bool}
    (hd : deserialize_json_cols_map arow cols = .ok d)
    (hk : d.lookup "_index" = some keys)
    (hr : added_row_repr (eraseKey "_index" d) = .ok rep)
    (hm : rep ∉ st.added_rows)
    (hsf : sf (.put_item keys (eraseKey "_index" d)) = true)
    (rest : List PyRow) (calls : List StoreCall) :
    runAdded cols sf (arow :: rest) st calls =
      ⟨calls ++ [.put_item keys (eraseKey "_index" d)], st, some .storeError⟩ := by
  rw [runAdded.eq_def]
  simp [hd, hk, hr, hm, hsf]

theorem runAdded_cons_call {arow : PyRow} {cols : List String} {d : PyRow}
    {keys : PyVal} {rep : List Char} {st : ProcessedEdits} {sf : StoreCall → Bool}
    (hd : deserialize_json_cols_map arow cols = .ok d)
    (hk : d.lookup "_index" = some keys)
    (hr : added_row_repr (eraseKey "_index" d) = .ok rep)
    (hm : rep ∉ st.added_rows)
    (hsf : sf (.put_item keys (eraseKey "_index" d)) = false)
    (rest : List PyRow) (calls : List StoreCall) :
    runAdded cols sf (arow :: rest) st calls =
      runAdded cols sf rest
        ⟨st.edited_rows, st.added_rows ++ [rep], st.deleted_rows⟩
        (calls ++ [.put_item keys (eraseKey "_index" d)]) := by
  rw [runAdded.eq_def]
  simp [hd, hk, hr, hm, hsf]

theorem count_concat_ne {α : Type} [DecidableEq α] {a b : α} (h : ¬(b = a)) (l : List α) :
    (l ++ [b]).count a = l.count a := by
  simp [List.count_append, List.count_singleton', h]

theorem count_concat_eq {α : Type} [DecidableEq α] (a : α) (l : List α) :
    (l ++ [a]).count a = l.count a + 1 := by
  simp [List.count_append]

theorem runEdited_frame (df : PyTable) (cols : List String) (sf : StoreCall → Bool) :
    ∀ (entries : List (Nat × PyRow)) (st : ProcessedEdits) (calls : List StoreCall),
      (runEdited df cols sf entries st calls).state.added_rows = st.added_rows ∧
      (runEdited df cols sf entries st calls).state.deleted_rows = st.deleted_rows ∧
      (∀ k : PyVal,
        (runEdited df cols sf entries st calls).calls.count (.del_item k) =
          calls.count (.del_item k) ∧
        ∀ item : PyRow,
          (runEdited df cols sf entries st calls).calls.count (.put_item k item) =
            calls.count (.put_item k item)) := by
  intro entries
  induction entries with
  | nil =>
    intro st calls
    rw [runEdited_nil]
    exact ⟨rfl, rfl, fun k => ⟨rfl, fun item => rfl⟩⟩
  | cons e rest ih =>
    obtain ⟨idx, erow⟩ := e
    intro st calls
    cases hix : df.index[idx]? with
    | none =>
      rw [runEdited_cons_noidx cols sf hix]
      exact ⟨rfl, rfl, fun k => ⟨rfl, fun item => rfl⟩⟩
    | some key =>
      cases hd : deserialize_json_cols_map erow cols with
      | error e2 =>
        rw [runEdited_cons_err sf hix hd]
        exact ⟨rfl, rfl, fun k => ⟨rfl, fun item => rfl⟩⟩
      | ok d =>
        by_cases hlk : st.edited_rows.lookup idx = some d
        · rw [runEdited_cons_skip sf hix hd hlk]
          exact ih st calls
        · cases hsf : sf (.modify_item key d) with
          | true =>
            rw [runEdited_cons_fail hix hd hlk hsf]
            refine ⟨rfl, rfl, fun k => ⟨?_, fun item => ?_⟩⟩
            · exact count_concat_ne (by simp) calls
            · exact count_concat_ne (by simp) calls
          | false =>
            rw [runEdited_cons_call hix hd hlk hsf]
            obtain ⟨ha, hdel, hcnt⟩ := ih
              ⟨updateAssoc st.edited_rows idx d, st.added_rows, st.deleted_rows⟩
              (calls ++ [.modify_item key d])
            refine ⟨ha, hdel, fun k => ⟨?_, fun item => ?_⟩⟩
            · rw [(hcnt k).1]
              exact count_concat_ne (by simp) calls
            · rw [(hcnt k).2 item]
              exact count_concat_ne (by simp) calls

theorem runAdded_frame (cols : List String) (sf : StoreCall → Bool) :
    ∀ (entries : List PyRow) (st : ProcessedEdits) (calls : List StoreCall),
      (runAdded cols sf entries st calls).state.edited_rows = st.edited_rows ∧
      (runAdded cols sf entries st calls).state.deleted_rows = st.deleted_rows ∧
      (∀ k : PyVal,
        (runAdded cols sf entries st calls).calls.count (.del_item k) =
          calls.count (.del_item k) ∧
        ∀ item : PyRow,
          (runAdded cols sf entries st calls).calls.count (.modify_item k item) =
            calls.count (.modify_item k item)) := by
  intro entries
  induction entries with
  | nil =>
    intro st calls
    rw [runAdded_nil]
    exact ⟨rfl, rfl, fun k => ⟨rfl, fun item => rfl⟩⟩
  | cons arow rest ih =>
    intro st calls
    cases hd : deserialize_json_cols_map arow cols with
    | error e2 =>
      rw [runAdded_cons_err sf hd]
      exact ⟨rfl, rfl, fun k => ⟨rfl, fun item => rfl⟩⟩
    | ok d =>
      cases hk : d.lookup "_index" with
      | none =>
        rw [runAdded_cons_nokey sf hd hk]
        exact ⟨rfl, rfl, fun k => ⟨rfl, fun item => rfl⟩⟩
      | some keys =>
        cases hr : added_row_repr (eraseKey "_index" d) with
        | error e2 =>
          rw [runAdded_cons_badrepr sf hd hk hr]
          exact ⟨rfl, rfl, fun k => ⟨rfl, fun item => rfl⟩⟩
        | ok rep =>
          by_cases hm : rep ∈ st.added_rows
          · rw [runAdded_cons_skip sf hd hk hr hm]
            exact ih st calls
          · cases hsf : sf (.put_item keys (eraseKey "_index" d)) with
            | true =>
              rw [runAdded_cons_fail hd hk hr hm hsf]
              refine ⟨rfl, rfl, fun k => ⟨?_, fun item => ?_⟩⟩
              · exact count_concat_ne (by simp) calls
              · exact count_concat_ne (by simp) calls
            | false =>
              rw [runAdded_cons_call hd hk hr hm hsf]
              obtain ⟨ha, hdel, hcnt⟩ := ih
                ⟨st.edited_rows, st.added_rows ++ [rep], st.deleted_rows⟩
                (calls ++ [.put_item keys (eraseKey "_index" d)])
              refine ⟨ha, hdel, fun k => ⟨?_, fun item => ?_⟩⟩
              · rw [(hcnt k).1]
                exact count_concat_ne (by simp) calls
              · rw [(hcnt k).2 item]
                exact count_concat_ne (by simp) calls

theorem runDeleted_frame (df : PyTable) (sf : StoreCall → Bool) :
    ∀ (entries : List Nat) (st : ProcessedEdits) (calls : List StoreCall),
      (runDeleted df sf entries st calls).state.edited_rows = st.edited_rows ∧
      (runDeleted df sf entries st calls).state.added_rows = st.added_rows ∧
      (∀ (k : PyVal) (item : PyRow),
        (runDeleted df sf entries st calls).calls.count (.put_item k item) =
          calls.count (.put_item k item) ∧
        (runDeleted df sf entries st calls).calls.count (.modify_item k item) =
          calls.count (.modify_item k item)) := by
  intro entries
  induction entries with
  | nil =>
    intro st calls
    rw [runDeleted_nil]
    exact ⟨rfl, rfl, fun k item => ⟨rfl, rfl⟩⟩
  | cons idx rest ih =>
    intro st calls
    cases hix : df.index[idx]? with
    | none =>
      rw [runDeleted_cons_none sf hix]
      exact ⟨rfl, rfl, fun k item => ⟨rfl, rfl⟩⟩
    | some key =>
      by_cases hm : key ∈ st.deleted_rows
      · rw [runDeleted_cons_mem sf hix hm]
        exact ih st calls
      · cases hsf : sf (.del_item key) with
        | true =>
          rw [runDeleted_cons_fail hix hm hsf]
          refine ⟨rfl, rfl, fun k item => ⟨?_, ?_⟩⟩
          · exact count_concat_ne (by simp) calls
          · exact count_concat_ne (by simp) calls
        | false =>
          rw [runDeleted_cons_call hix hm hsf]
          obtain ⟨he, ha, hcnt⟩ := ih
            ⟨st.edited_rows, st.added_rows, st.deleted_rows ++ [key]⟩
            (calls ++ [.del_item key])
          refine ⟨he, ha, fun k item => ⟨?_, ?_⟩⟩
          · rw [(hcnt k item).1]
            exact count_concat_ne (by simp) calls
          · rw [(hcnt k item).2]
            exact count_concat_ne (by simp) calls

theorem runDeleted_del_spec (df : PyTable) (k : PyVal) :
    ∀ (entries : List Nat) (st : ProcessedEdits) (calls : List StoreCall),
      ((runDeleted df noFail entries st calls).calls.count (.del_item k) ≤
        calls.count (.del_item k) + (if k ∈ st.deleted_rows then 0 else 1)) ∧
      (k ∈ st.deleted_rows →
        k ∈ (runDeleted df noFail entries st calls).state.deleted_rows ∧
        (runDeleted df noFail entries st calls).calls.count (.del_item k) =
          calls.count (.del_item k)) ∧
      (calls.count (.del_item k) <
          (runDeleted df noFail entries st calls).calls.count (.del_item k) →
        k ∈ (runDeleted df noFail entries st calls).state.deleted_rows) := by
  intro entries
  induction entries with
  | nil =>
    intro st calls
    rw [runDeleted_nil]
    dsimp only
    refine ⟨by split <;> omega, fun hm => ⟨hm, rfl⟩, fun hlt => absurd hlt (by omega)⟩
  | cons idx rest ih =>
    intro st calls
    cases hix : df.index[idx]? with
    | none =>
      rw [runDeleted_cons_none noFail hix]
      dsimp only
      refine ⟨by split <;> omega, fun hm => ⟨hm, rfl⟩, fun hlt => absurd hlt (by omega)⟩
    | some key =>
      by_cases hm : key ∈ st.deleted_rows
      · rw [runDeleted_cons_mem noFail hix hm]
        exact ih st calls
      · rw [runDeleted_cons_call hix hm rfl]
        obtain ⟨hbound, hmem, hrec⟩ := ih
          ⟨st.edited_rows, st.added_rows, st.deleted_rows ++ [key]⟩
          (calls ++ [.del_item key])
        by_cases hkk : k = key
        · subst hkk
          have hmem2 : k ∈ st.deleted_rows ++ [k] := by simp
          refine ⟨?_, fun hin => absurd hin hm, fun _ => (hmem hmem2).1⟩
          have h1 := hbound
          rw [if_pos hmem2] at h1
          rw [count_concat_eq] at h1
          rw [if_neg hm]
          omega
        · have hne : ¬((StoreCall.del_item key) = (.del_item k)) := by
            intro hcon
            injection hcon with hcon
            exact hkk hcon.symm
          have hcc : (calls ++ [StoreCall.del_item key]).count (.del_item k) =
              calls.count (.del_item k) := count_concat_ne hne calls
          have hmemiff : k ∈ st.deleted_rows ++ [key] ↔ k ∈ st.deleted_rows := by
            simp [hkk]
          refine ⟨?_, fun hin => ?_, fun hlt => ?_⟩
          · have h1 := hbound
            rw [hcc] at h1
            by_cases hks : k ∈ st.deleted_rows
            · rw [if_pos (hmemiff.mpr hks)] at h1
              rw [if_pos hks]
              omega
            · rw [if_neg (fun hcon => hks (hmemiff.mp hcon))] at h1
              rw [if_neg hks]
              omega
          · exact ⟨(hmem (hmemiff.mpr hin)).1, by rw [(hmem (hmemiff.mpr hin)).2, hcc]⟩
          · exact hrec (by rw [hcc]; exact hlt)

theorem process_edits_err1 {df : PyTable} {cols : List String} {sf : StoreCall → Bool}
    {info : EditInfo} {st : ProcessedEdits} {e : PyErr}
    (h : (runEdited df cols sf info.edited_rows st []).err = some e) :
    process_edits df cols sf info st = runEdited df cols sf info.edited_rows st [] := by
  simp only [process_edits]
  rw [h]

theorem process_edits_err2 {df : PyTable} {cols : List String} {sf : StoreCall → Bool}
    {info : EditInfo} {st : ProcessedEdits} {e : PyErr}
    (h1 : (runEdited df cols sf info.edited_rows st []).err = Option.none)
    (h2 : (runAdded cols sf info.added_rows
        (runEdited df cols sf info.edited_rows st []).state
        (runEdited df cols sf info.edited_rows st []).calls).err = some e) :
    process_edits df cols sf info st =
      runAdded cols sf info.added_rows
        (runEdited df cols sf info.edited_rows st []).state
        (runEdited df cols sf info.edited_rows st []).calls := by
  simp only [process_edits]
  rw [h1, h2]

theorem process_edits_ok12 {df : PyTable} {cols : List String} {sf : StoreCall → Bool}
    {info : EditInfo} {st : ProcessedEdits}
    (h1 : (runEdited df cols sf info.edited_rows st []).err = Option.none)
    (h2 : (runAdded cols sf info.added_rows
        (runEdited df cols sf info.edited_rows st []).state
        (runEdited df cols sf info.edited_rows st []).calls).err = Option.none) :
    process_edits df cols sf info st =
      runDeleted df sf info.deleted_rows
        (runAdded cols sf info.added_rows
          (runEdited df cols sf info.edited_rows st []).state
          (runEdited df cols sf info.edited_rows st []).calls).state
        (runAdded cols sf info.added_rows
          (runEdited df cols sf info.edited_rows st []).state
          (runEdited df cols sf info.edited_rows st []).calls).calls := by
  simp only [process_edits]
  rw [h1, h2]

theorem process_edits_del_spec (df : PyTable) (cols : List String) (info : EditInfo)
    (st : ProcessedEdits) (k : PyVal) :
    ((process_edits df cols noFail info st).calls.count (.del_item k) ≤
      (if k ∈ st.deleted_rows then 0 else 1)) ∧
    (k ∈ st.deleted_rows →
      k ∈ (process_edits df cols noFail info st).state.deleted_rows ∧
      (process_edits df cols noFail info st).calls.count (.del_item k) = 0) ∧
    (0 < (process_edits df cols noFail info st).calls.count (.del_item k) →
      k ∈ (process_edits df cols noFail info st).state.deleted_rows) := by
  have hf1 := runEdited_frame df cols noFail info.edited_rows st []
  have h1c : (runEdited df cols noFail info.edited_rows st []).calls.count
      (.del_item k) = 0 := by
    rw [(hf1.2.2 k).1]
    rfl
  have h1d : (runEdited df cols noFail info.edited_rows st []).state.deleted_rows =
      st.deleted_rows := hf1.2.1
  cases he1 : (runEdited df cols noFail info.edited_rows st []).err with
  | some e =>
    rw [process_edits_err1 he1, h1c, h1d]
    exact ⟨Nat.zero_le _, fun hm => ⟨hm, rfl⟩, fun h0 => absurd h0 (by omega)⟩
  | none =>
    have hf2 := runAdded_frame cols noFail info.added_rows
      (runEdited df cols noFail info.edited_rows st []).state
      (runEdited df cols noFail info.edited_rows st []).calls
    have h2c : (runAdded cols noFail info.added_rows
        (runEdited df cols noFail info.edited_rows st []).state
        (runEdited df cols noFail info.edited_rows st []).calls).calls.count
        (.del_item k) = 0 := by
      rw [(hf2.2.2 k).1, h1c]
    have h2d : (runAdded cols noFail info.added_rows
        (runEdited df cols noFail info.edited_rows st []).state
        (runEdited df cols noFail info.edited_rows st []).calls).state.deleted_rows =
        st.deleted_rows := by
      rw [hf2.2.1, h1d]
    cases he2 : (runAdded cols noFail info.added_rows
        (runEdited df cols noFail info.edited_rows st []).state
        (runEdited df cols noFail info.edited_rows st []).calls).err with
    | some e =>
      rw [process_edits_err2 he1 he2, h2c, h2d]
      exact ⟨Nat.zero_le _, fun hm => ⟨hm, rfl⟩, fun h0 => absurd h0 (by omega)⟩
    | none =>
      rw [process_edits_ok12 he1 he2]
      obtain ⟨hbound, hmem, hrec⟩ := runDeleted_del_spec df k info.deleted_rows
        (runAdded cols noFail info.added_rows
          (runEdited df cols noFail info.edited_rows st []).state
          (runEdited df cols noFail info.edited_rows st []).calls).state
        (runAdded cols noFail info.added_rows
          (runEdited df cols noFail info.edited_rows st []).state
          (runEdited df cols noFail info.edited_rows st []).calls).calls
      rw [h2c, h2d] at hbound
      refine ⟨by omega, fun hm => ?_, fun h0 => ?_⟩
      · obtain ⟨hin, heq⟩ := hmem (by rw [h2d]; exact hm)
        exact ⟨hin, by rw [heq, h2c]⟩
      · exact hrec (by rw [h2c]; exact h0)

/-- C7: for each position in the diff's deleted rows the editor resolves the
position to a row key through the snapshot's index; a key already recorded in
the applied-edits record is skipped with no store call, otherwise `del_item`
is called once with that key and the key is recorded — hence across two
consecutive render cycles (the second starting from the record the first
left behind) `del_item` is invoked at most once for any given key. -/
theorem c7_delete_at_most_once (df df2 : PyTable) (cols cols2 : List String)
    (info info2 : EditInfo) (st0 : ProcessedEdits) (k : PyVal) :
    (∀ (idx : Nat) (key : PyVal) (rest : List Nat) (st : ProcessedEdits)
        (calls : List StoreCall), df.index[idx]? = some key →
      (key ∈ st.deleted_rows →
        runDeleted df noFail (idx :: rest) st calls =
          runDeleted df noFail rest st calls) ∧
      (key ∉ st.deleted_rows →
        runDeleted df noFail (idx :: rest) st calls =
          runDeleted df noFail rest
            ⟨st.edited_rows, st.added_rows, st.deleted_rows ++ [key]⟩
            (calls ++ [.del_item key]))) ∧
    ((process_edits df cols noFail info st0).calls ++
        (process_edits df2 cols2 noFail info2
          (process_edits df cols noFail info st0).state).calls).count
      (.del_item k) ≤ 1 := by
  refine ⟨fun idx key rest st calls h =>
    ⟨fun hm => runDeleted_cons_mem noFail h hm rest calls,
     fun hm => runDeleted_cons_call h hm rfl rest calls⟩, ?_⟩
  rw [List.count_append]
  obtain ⟨hb1, hm1, hr1⟩ := process_edits_del_spec df cols info st0 k
  obtain ⟨hb2, hm2, hr2⟩ := process_edits_del_spec df2 cols2 info2
    (process_edits df cols noFail info st0).state k
  by_cases hk : k ∈ st0.deleted_rows
  · obtain ⟨hmem, hz1⟩ := hm1 hk
    obtain ⟨_, hz2⟩ := hm2 hmem
    omega
  · rw [if_neg hk] at hb1
    by_cases hz : (process_edits df cols noFail info st0).calls.count (.del_item k) = 0
    · have h2 : (process_edits df2 cols2 noFail info2
          (process_edits df cols noFail info st0).state).calls.count (.del_item k) ≤ 1 :=
        le_trans hb2 (by split <;> omega)
      omega
    · obtain ⟨_, hz2⟩ := hm2 (hr1 (Nat.pos_of_ne_zero hz))
      omega

/-- Witness for C7: a one-row table whose only row is deleted in both of two
consecutive render cycles; the delete call list of the pair of runs contains
`del_item "a"` once. -/
theorem c7_delete_at_most_once_witness :
    (runDeleted ⟨[.str "a"], []⟩ noFail [0] ⟨[], [], []⟩ [] =
      runDeleted ⟨[.str "a"], []⟩ noFail [] ⟨[], [], [.str "a"]⟩
        [.del_item (.str "a")]) ∧
    ((process_edits ⟨[.str "a"], []⟩ [] noFail ⟨[], [], [0]⟩ ⟨[], [], []⟩).calls ++
        (process_edits ⟨[.str "a"], []⟩ [] noFail ⟨[], [], [0]⟩
          (process_edits ⟨[.str "a"], []⟩ [] noFail ⟨[], [], [0]⟩
            ⟨[], [], []⟩).state).calls).count
      (.del_item (.str "a")) ≤ 1 := by
  obtain ⟨hmech, hcount⟩ := c7_delete_at_most_once ⟨[.str "a"], []⟩ ⟨[.str "a"], []⟩
    [] [] ⟨[], [], [0]⟩ ⟨[], [], [0]⟩ ⟨[], [], []⟩ (.str "a")
  exact ⟨(hmech 0 (.str "a") [] ⟨[], [], []⟩ [] rfl).2 (by simp), hcount⟩

theorem runAdded_put_err {cols : List String} {k : PyVal} {item : PyRow} {e : PyErr}
    (herr : added_row_repr item = .error e) :
    ∀ (entries : List PyRow) (st : ProcessedEdits) (calls : List StoreCall),
      (runAdded cols noFail entries st calls).calls.count (.put_item k item) =
        calls.count (.put_item k item) := by
  intro entries
  induction entries with
  | nil =>
    intro st calls
    rw [runAdded_nil]
  | cons arow rest ih =>
    intro st calls
    cases hd : deserialize_json_cols_map arow cols with
    | error e2 => rw [runAdded_cons_err noFail hd]
    | ok d =>
      cases hk : d.lookup "_index" with
      | none => rw [runAdded_cons_nokey noFail hd hk]
      | some keys =>
        cases hr : added_row_repr (eraseKey "_index" d) with
        | error e2 => rw [runAdded_cons_badrepr noFail hd hk hr]
        | ok rep =>
          by_cases hm : rep ∈ st.added_rows
          · rw [runAdded_cons_skip noFail hd hk hr hm]
            exact ih st calls
          · rw [runAdded_cons_call hd hk hr hm rfl]
            rw [ih _ _]
            apply count_concat_ne _ calls
            intro hcon
            injection hcon with h1 h2
            rw [h2, herr] at hr
            exact Except.noConfusion hr

theorem runAdded_put_spec {cols : List String} {k : PyVal} {item : PyRow}
    {rep : List Char} (hrep : added_row_repr item = .ok rep) :
    ∀ (entries : List PyRow) (st : ProcessedEdits) (calls : List StoreCall),
      ((runAdded cols noFail entries st calls).calls.count (.put_item k item) ≤
        calls.count (.put_item k item) + (if rep ∈ st.added_rows then 0 else 1)) ∧
      (rep ∈ st.added_rows →
        rep ∈ (runAdded cols noFail entries st calls).state.added_rows ∧
        (runAdded cols noFail entries st calls).calls.count (.put_item k item) =
          calls.count (.put_item k item)) ∧
      (calls.count (.put_item k item) <
          (runAdded cols noFail entries st calls).calls.count (.put_item k item) →
        rep ∈ (runAdded cols noFail entries st calls).state.added_rows) := by
  intro entries
  induction entries with
  | nil =>
    intro st calls
    rw [runAdded_nil]
    dsimp only
    refine ⟨by split <;> omega, fun hm => ⟨hm, rfl⟩, fun hlt => absurd hlt (by omega)⟩
  | cons arow rest ih =>
    intro st calls
    cases hd : deserialize_json_cols_map arow cols with
    | error e2 =>
      rw [runAdded_cons_err noFail hd]
      dsimp only
      refine ⟨by split <;> omega, fun hm => ⟨hm, rfl⟩, fun hlt => absurd hlt (by omega)⟩
    | ok d =>
      cases hk : d.lookup "_index" with
      | none =>
        rw [runAdded_cons_nokey noFail hd hk]
        dsimp only
        refine ⟨by split <;> omega, fun hm => ⟨hm, rfl⟩, fun hlt => absurd hlt (by omega)⟩
      | some keys =>
        cases hr : added_row_repr (eraseKey "_index" d) with
        | error e2 =>
          rw [runAdded_cons_badrepr noFail hd hk hr]
          dsimp only
          refine ⟨by split <;> omega, fun hm => ⟨hm, rfl⟩, fun hlt => absurd hlt (by omega)⟩
        | ok rep2 =>
          by_cases hm : rep2 ∈ st.added_rows
          · rw [runAdded_cons_skip noFail hd hk hr hm]
            exact ih st calls
          · rw [runAdded_cons_call hd hk hr hm rfl]
            obtain ⟨hbound, hmem, hrec⟩ := ih
              ⟨st.edited_rows, st.added_rows ++ [rep2], st.deleted_rows⟩
              (calls ++ [.put_item keys (eraseKey "_index" d)])
            by_cases hcall :
                (StoreCall.put_item keys (eraseKey "_index" d)) = (.put_item k item)
            · have h2 : eraseKey "_index" d = item := by
                injection hcall with h1x h2x
              rw [h2, hrep] at hr
              injection hr with hrr
              subst hrr
              have hmem2 : rep ∈ st.added_rows ++ [rep] := by simp
              refine ⟨?_, fun hin => absurd hin hm, fun _ => (hmem hmem2).1⟩
              rw [hcall] at hbound ⊢
              rw [if_pos hmem2, count_concat_eq] at hbound
              rw [if_neg hm]
              omega
            · have hcc : (calls ++ [StoreCall.put_item keys (eraseKey "_index" d)]).count
                  (.put_item k item) = calls.count (.put_item k item) :=
                count_concat_ne hcall calls
              by_cases hrr : rep2 = rep
              · subst hrr
                have hmem2 : rep2 ∈ st.added_rows ++ [rep2] := by simp
                obtain ⟨hin2, heq2⟩ := hmem hmem2
                refine ⟨?_, fun hin => ⟨hin2, by rw [heq2, hcc]⟩, fun _ => hin2⟩
                rw [if_neg hm, heq2, hcc]
                omega
              · have hmemiff : rep ∈ st.added_rows ++ [rep2] ↔ rep ∈ st.added_rows := by
                  simp [Ne.symm hrr]
                refine ⟨?_, fun hin => ?_, fun hlt => ?_⟩
                · have h1 := hbound
                  rw [hcc] at h1
                  by_cases hks : rep ∈ st.added_rows
                  · rw [if_pos (hmemiff.mpr hks)] at h1
                    rw [if_pos hks]
                    omega
                  · rw [if_neg (fun hcon => hks (hmemiff.mp hcon))] at h1
                    rw [if_neg hks]
                    omega
                · exact ⟨(hmem (hmemiff.mpr hin)).1,
                    by rw [(hmem (hmemiff.mpr hin)).2, hcc]⟩
                · exact hrec (by rw [hcc]; exact hlt)

theorem process_edits_put_err (df : PyTable) (cols : List String) (info : EditInfo)
    (st : ProcessedEdits) (k : PyVal) {item : PyRow} {e : PyErr}
    (herr : added_row_repr item = .error e) :
    (process_edits df cols noFail info st).calls.count (.put_item k item) = 0 := by
  have hf1 := runEdited_frame df cols noFail info.edited_rows st []
  have h1c : (runEdited df cols noFail info.edited_rows st []).calls.count
      (.put_item k item) = 0 := by
    rw [(hf1.2.2 k).2 item]
    rfl
  cases he1 : (runEdited df cols noFail info.edited_rows st []).err with
  | some e2 =>
    rw [process_edits_err1 he1, h1c]
  | none =>
    have h2c : (runAdded cols noFail info.added_rows
        (runEdited df cols noFail info.edited_rows st []).state
        (runEdited df cols noFail info.edited_rows st []).calls).calls.count
        (.put_item k item) = 0 := by
      rw [runAdded_put_err herr, h1c]
    cases he2 : (runAdded cols noFail info.added_rows
        (runEdited df cols noFail info.edited_rows st []).state
        (runEdited df cols noFail info.edited_rows st []).calls).err with
    | some e2 =>
      rw [process_edits_err2 he1 he2, h2c]
    | none =>
      rw [process_edits_ok12 he1 he2]
      have hf3 := runDeleted_frame df noFail info.deleted_rows
        (runAdded cols noFail info.added_rows
          (runEdited df cols noFail info.edited_rows st []).state
          (runEdited df cols noFail info.edited_rows st []).calls).state
        (runAdded cols noFail info.added_rows
          (runEdited df cols noFail info.edited_rows st []).state
          (runEdited df cols noFail info.edited_rows st []).calls).calls
      rw [(hf3.2.2 k item).1, h2c]

theorem process_edits_put_spec (df : PyTable) (cols : List String) (info : EditInfo)
    (st : ProcessedEdits) (k : PyVal) {item : PyRow} {rep : List Char}
    (hrep : added_row_repr item = .ok rep) :
    ((process_edits df cols noFail info st).calls.count (.put_item k item) ≤
      (if rep ∈ st.added_rows then 0 else 1)) ∧
    (rep ∈ st.added_rows →
      rep ∈ (process_edits df cols noFail info st).state.added_rows ∧
      (process_edits df cols noFail info st).calls.count (.put_item k item) = 0) ∧
    (0 < (process_edits df cols noFail info st).calls.count (.put_item k item) →
      rep ∈ (process_edits df cols noFail info st).state.added_rows) := by
  have hf1 := runEdited_frame df cols noFail info.edited_rows st []
  have h1c : (runEdited df cols noFail info.edited_rows st []).calls.count
      (.put_item k item) = 0 := by
    rw [(hf1.2.2 k).2 item]
    rfl
  have h1a : (runEdited df cols noFail info.edited_rows st []).state.added_rows =
      st.added_rows := hf1.1
  cases he1 : (runEdited df cols noFail info.edited_rows st []).err with
  | some e =>
    rw [process_edits_err1 he1, h1c, h1a]
    exact ⟨Nat.zero_le _, fun hm => ⟨hm, rfl⟩, fun h0 => absurd h0 (by omega)⟩
  | none =>
    obtain ⟨hbound, hmem, hrec⟩ := runAdded_put_spec hrep info.added_rows
      (runEdited df cols noFail info.edited_rows st []).state
      (runEdited df cols noFail info.edited_rows st []).calls
    rw [h1c, h1a] at hbound
    cases he2 : (runAdded cols noFail info.added_rows
        (runEdited df cols noFail info.edited_rows st []).state
        (runEdited df cols noFail info.edited_rows st []).calls).err with
    | some e =>
      rw [process_edits_err2 he1 he2]
      refine ⟨le_trans hbound (by omega), fun hm => ?_, fun h0 => ?_⟩
      · obtain ⟨hin, heq⟩ := hmem (by rw [h1a]; exact hm)
        exact ⟨hin, by rw [heq, h1c]⟩
      · exact hrec (by rw [h1c]; exact h0)
    | none =>
      rw [process_edits_ok12 he1 he2]
      have hf3 := runDeleted_frame df noFail info.deleted_rows
        (runAdded cols noFail info.added_rows
          (runEdited df cols noFail info.edited_rows st []).state
          (runEdited df cols noFail info.edited_rows st []).calls).state
        (runAdded cols noFail info.added_rows
          (runEdited df cols noFail info.edited_rows st []).state
          (runEdited df cols noFail info.edited_rows st []).calls).calls
      rw [(hf3.2.2 k item).1, hf3.2.1]
      refine ⟨le_trans hbound (by omega), fun hm => ?_, fun h0 => ?_⟩
      · obtain ⟨hin, heq⟩ := hmem (by rw [h1a]; exact hm)
        exact ⟨hin, by rw [heq, h1c]⟩
      · exact hrec (by rw [h1c]; exact h0)

/-- C4: for each added row the editor deserializes it, extracts the key from
the reserved `_index` column, and computes the canonical sorted-key dumps
representation of the remaining columns; a representation already recorded in
the applied-edits record is skipped with no store call, otherwise `put_item`
is called once with the key and remaining columns and the representation is
recorded — hence across two consecutive render cycles (the second starting
from the record the first left behind) `put_item` is invoked at most once for
any given key and non-key content. -/
theorem c4_added_rows_upsert_at_most_once (df df2 : PyTable)
    (cols cols2 : List String) (info info2 : EditInfo) (st0 : ProcessedEdits)
    (k : PyVal) (item : PyRow) :
    (∀ (arow : PyRow) (d : PyRow) (keys : PyVal) (rep : List Char)
        (rest : List PyRow) (st : ProcessedEdits) (calls : List StoreCall),
      deserialize_json_cols_map arow cols = .ok d →
      d.lookup "_index" = some keys →
      added_row_repr (eraseKey "_index" d) = .ok rep →
      (rep ∈ st.added_rows →
        runAdded cols noFail (arow :: rest) st calls =
          runAdded cols noFail rest st calls) ∧
      (rep ∉ st.added_rows →
        runAdded cols noFail (arow :: rest) st calls =
          runAdded cols noFail rest
            ⟨st.edited_rows, st.added_rows ++ [rep], st.deleted_rows⟩
            (calls ++ [.put_item keys (eraseKey "_index" d)]))) ∧
    ((process_edits df cols noFail info st0).calls ++
        (process_edits df2 cols2 noFail info2
          (process_edits df cols noFail info st0).state).calls).count
      (.put_item k item) ≤ 1 := by
  refine ⟨fun arow d keys rep rest st calls hd hk hr =>
    ⟨fun hm => runAdded_cons_skip noFail hd hk hr hm rest calls,
     fun hm => runAdded_cons_call hd hk hr hm rfl rest calls⟩, ?_⟩
  rw [List.count_append]
  cases hrepr : added_row_repr item with
  | error e =>
    rw [process_edits_put_err df cols info st0 k hrepr,
      process_edits_put_err df2 cols2 info2 _ k hrepr]
    omega
  | ok rep =>
    obtain ⟨hb1, hm1, hr1⟩ := process_edits_put_spec df cols info st0 k hrepr
    obtain ⟨hb2, hm2, hr2⟩ := process_edits_put_spec df2 cols2 info2
      (process_edits df cols noFail info st0).state k hrepr
    by_cases hk : rep ∈ st0.added_rows
    · obtain ⟨hmem, hz1⟩ := hm1 hk
      obtain ⟨_, hz2⟩ := hm2 hmem
      omega
    · rw [if_neg hk] at hb1
      by_cases hz : (process_edits df cols noFail info st0).calls.count
          (.put_item k item) = 0
      · have h2 : (process_edits df2 cols2 noFail info2
            (process_edits df cols noFail info st0).state).calls.count
            (.put_item k item) ≤ 1 :=
          le_trans hb2 (by split <;> omega)
        omega
      · obtain ⟨_, hz2⟩ := hm2 (hr1 (Nat.pos_of_ne_zero hz))
        omega

/-- Witness for C4: a diff adding the row with key "b" and one column
`n = 1`, reported again on a second render; `put_item` appears once in the
pair of runs, and the single step records the canonical representation and
makes the call. -/
theorem c4_added_rows_upsert_at_most_once_witness :
    (runAdded [] noFail [[("_index", .str "b"), ("n", .int 1)]] ⟨[], [], []⟩ [] =
      runAdded [] noFail []
        ⟨[], [] ++ [("\x7b\"n\": 1\x7d").data], []⟩
        [.put_item (.str "b") [("n", .int 1)]]) ∧
    ((process_edits ⟨[], []⟩ [] noFail
          ⟨[], [[("_index", .str "b"), ("n", .int 1)]], []⟩ ⟨[], [], []⟩).calls ++
        (process_edits ⟨[], []⟩ [] noFail
          ⟨[], [[("_index", .str "b"), ("n", .int 1)]], []⟩
          (process_edits ⟨[], []⟩ [] noFail
            ⟨[], [[("_index", .str "b"), ("n", .int 1)]], []⟩
            ⟨[], [], []⟩).state).calls).count
      (.put_item (.str "b") [("n", .int 1)]) ≤ 1 := by
  obtain ⟨hmech, hcount⟩ := c4_added_rows_upsert_at_most_once ⟨[], []⟩ ⟨[], []⟩
    [] [] ⟨[], [[("_index", .str "b"), ("n", .int 1)]], []⟩
    ⟨[], [[("_index", .str "b"), ("n", .int 1)]], []⟩ ⟨[], [], []⟩
    (.str "b") [("n", .int 1)]
  exact ⟨(hmech [("_index", .str "b"), ("n", .int 1)]
      [("_index", .str "b"), ("n", .int 1)] (.str "b")
      (("\x7b\"n\": 1\x7d").data) [] ⟨[], [], []⟩ [] rfl rfl rfl).2 (by simp),
    hcount⟩

theorem nlookup_cons_pos {k : Nat} {v : PyRow} {rest : List (Nat × PyRow)} {c : Nat}
    (h : k = c) : ((k, v) :: rest).lookup c = some v := by
  have hb : (c == k) = true := beq_iff_eq.mpr h.symm
  simp [List.lookup, hb]

theorem nlookup_cons_neg {k : Nat} {v : PyRow} {rest : List (Nat × PyRow)} {c : Nat}
    (h : ¬(k = c)) : ((k, v) :: rest).lookup c = rest.lookup c := by
  have hb : (c == k) = false := beq_eq_false_iff_ne.mpr (fun hc => h hc.symm)
  simp [List.lookup, hb]

theorem updateAssoc_lookup_eq : ∀ (l : List (Nat × PyRow)) (i : Nat) (r : PyRow),
    (updateAssoc l i r).lookup i = some r := by
  intro l i r
  induction l with
  | nil =>
    rw [updateAssoc, nlookup_cons_pos rfl]
  | cons kv rest ih =>
    by_cases h : kv.1 = i
    · rw [updateAssoc, if_pos h, nlookup_cons_pos rfl]
    · rw [updateAssoc, if_neg h, nlookup_cons_neg h]
      exact ih

theorem updateAssoc_lookup_ne {i j : Nat} (hne : ¬(j = i)) :
    ∀ (l : List (Nat × PyRow)) (r : PyRow),
      (updateAssoc l j r).lookup i = l.lookup i := by
  intro l r
  induction l with
  | nil =>
    rw [updateAssoc, nlookup_cons_neg hne]
  | cons kv rest ih =>
    by_cases h : kv.1 = j
    · rw [updateAssoc, if_pos h, nlookup_cons_neg (h ▸ hne), nlookup_cons_neg (h ▸ hne)]
    · rw [updateAssoc, if_neg h]
      cases hik : decide (kv.1 = i) with
      | true =>
        have hk : kv.1 = i := of_decide_eq_true hik
        rw [nlookup_cons_pos hk, nlookup_cons_pos hk]
      | false =>
        have hk : ¬(kv.1 = i) := of_decide_eq_false hik
        rw [nlookup_cons_neg hk, nlookup_cons_neg hk]
        exact ih

theorem runEdited_absent_frame (df : PyTable) (cols : List String) {idx0 : Nat}
    {k : PyVal} {d : PyRow}
    (huniq : ∀ j : Nat, df.index[j]? = some k → j = idx0) :
    ∀ (entries : List (Nat × PyRow)) (st : ProcessedEdits) (calls : List StoreCall),
      idx0 ∉ entries.map Prod.fst →
      (runEdited df cols noFail entries st calls).state.edited_rows.lookup idx0 =
        st.edited_rows.lookup idx0 ∧
      (runEdited df cols noFail entries st calls).calls.count (.modify_item k d) =
        calls.count (.modify_item k d) := by
  intro entries
  induction entries with
  | nil =>
    intro st calls _
    rw [runEdited_nil]
    exact ⟨rfl, rfl⟩
  | cons e rest ih =>
    obtain ⟨idx, erow⟩ := e
    intro st calls habs
    simp only [List.map_cons, List.mem_cons] at habs
    push_neg at habs
    have hne1 : ¬(idx = idx0) := fun hc => habs.1 hc.symm
    have hne2 : idx0 ∉ rest.map Prod.fst := habs.2
    cases hix : df.index[idx]? with
    | none =>
      rw [runEdited_cons_noidx cols noFail hix]
      exact ⟨rfl, rfl⟩
    | some key =>
      cases hd2 : deserialize_json_cols_map erow cols with
      | error e2 =>
        rw [runEdited_cons_err noFail hix hd2]
        exact ⟨rfl, rfl⟩
      | ok dc =>
        by_cases hlk : st.edited_rows.lookup idx = some dc
        · rw [runEdited_cons_skip noFail hix hd2 hlk]
          exact ih st calls hne2
        · rw [runEdited_cons_call hix hd2 hlk rfl]
          obtain ⟨ha, hb⟩ := ih
            ⟨updateAssoc st.edited_rows idx dc, st.added_rows, st.deleted_rows⟩
            (calls ++ [.modify_item key dc]) hne2
          constructor
          · rw [ha]
            exact updateAssoc_lookup_ne hne1 st.edited_rows dc
          · rw [hb]
            apply count_concat_ne _ calls
            intro hcon
            injection hcon with h1 h2
            exact hne1 (huniq idx (h1 ▸ hix))

theorem runEdited_mod_spec (df : PyTable) (cols : List String) {idx0 : Nat}
    {k : PyVal} {d : PyRow}
    (hidx : df.index[idx0]? = some k)
    (huniq : ∀ j : Nat, df.index[j]? = some k → j = idx0) :
    ∀ (entries : List (Nat × PyRow)) (st : ProcessedEdits) (calls : List StoreCall),
      (entries.map Prod.fst).Nodup →
      ((runEdited df cols noFail entries st calls).calls.count (.modify_item k d) ≤
        calls.count (.modify_item k d) +
          (if st.edited_rows.lookup idx0 = some d then 0 else 1)) ∧
      (calls.count (.modify_item k d) <
          (runEdited df cols noFail entries st calls).calls.count (.modify_item k d) →
        (runEdited df cols noFail entries st calls).state.edited_rows.lookup idx0 =
          some d) := by
  intro entries
  induction entries with
  | nil =>
    intro st calls _
    rw [runEdited_nil]
    dsimp only
    exact ⟨by split <;> omega, fun hlt => absurd hlt (by omega)⟩
  | cons e rest ih =>
    obtain ⟨idx, erow⟩ := e
    intro st calls hnd
    rw [List.map_cons] at hnd
    have hsplit := List.nodup_cons.mp hnd
    have hidxnot : idx ∉ rest.map Prod.fst := hsplit.1
    have hnd2 : (rest.map Prod.fst).Nodup := hsplit.2
    cases hix : df.index[idx]? with
    | none =>
      rw [runEdited_cons_noidx cols noFail hix]
      dsimp only
      exact ⟨by split <;> omega, fun hlt => absurd hlt (by omega)⟩
    | some key =>
      cases hd2 : deserialize_json_cols_map erow cols with
      | error e2 =>
        rw [runEdited_cons_err noFail hix hd2]
        dsimp only
        exact ⟨by split <;> omega, fun hlt => absurd hlt (by omega)⟩
      | ok dc =>
        by_cases hlk : st.edited_rows.lookup idx = some dc
        · rw [runEdited_cons_skip noFail hix hd2 hlk]
          exact ih st calls hnd2
        · rw [runEdited_cons_call hix hd2 hlk rfl]
          by_cases hc : (StoreCall.modify_item key dc) = (.modify_item k d)
          · injection hc with h1 h2
            subst h1
            subst h2
            have hii : idx = idx0 := huniq idx hix
            obtain ⟨ha, hb⟩ := runEdited_absent_frame df cols huniq rest
              ⟨updateAssoc st.edited_rows idx dc, st.added_rows, st.deleted_rows⟩
              (calls ++ [.modify_item key dc]) (hii ▸ hidxnot)
            rw [hii] at hlk
            constructor
            · rw [hb, count_concat_eq, if_neg hlk]
            · intro _
              rw [ha]
              rw [show (⟨updateAssoc st.edited_rows idx dc, st.added_rows,
                  st.deleted_rows⟩ : ProcessedEdits).edited_rows =
                  updateAssoc st.edited_rows idx dc from rfl]
              rw [hii]
              exact updateAssoc_lookup_eq st.edited_rows idx0 dc
          · have hcc : (calls ++ [StoreCall.modify_item key dc]).count
                (.modify_item k d) = calls.count (.modify_item k d) :=
              count_concat_ne hc calls
            by_cases hii : idx = idx0
            · obtain ⟨ha, hb⟩ := runEdited_absent_frame df cols huniq rest
                ⟨updateAssoc st.edited_rows idx dc, st.added_rows, st.deleted_rows⟩
                (calls ++ [.modify_item key dc]) (hii ▸ hidxnot)
              constructor
              · rw [hb, hcc]
                split <;> omega
              · intro hlt
                rw [hb, hcc] at hlt
                exact absurd hlt (by omega)
            · obtain ⟨hbound, hrec⟩ := ih
                ⟨updateAssoc st.edited_rows idx dc, st.added_rows, st.deleted_rows⟩
                (calls ++ [.modify_item key dc]) hnd2
              dsimp only at hbound hrec
              rw [updateAssoc_lookup_ne hii st.edited_rows dc, hcc] at hbound
              rw [hcc] at hrec
              exact ⟨hbound, hrec⟩

theorem process_edits_mod_spec (df : PyTable) (cols : List String) (info : EditInfo)
    (st : ProcessedEdits) {idx0 : Nat} {k : PyVal} {d : PyRow}
    (hidx : df.index[idx0]? = some k)
    (huniq : ∀ j : Nat, df.index[j]? = some k → j = idx0)
    (hnd : (info.edited_rows.map Prod.fst).Nodup) :
    ((process_edits df cols noFail info st).calls.count (.modify_item k d) ≤
      (if st.edited_rows.lookup idx0 = some d then 0 else 1)) ∧
    (0 < (process_edits df cols noFail info st).calls.count (.modify_item k d) →
      (process_edits df cols noFail info st).state.edited_rows.lookup idx0 =
        some d) := by
  obtain ⟨hbound, hrec⟩ := runEdited_mod_spec df cols hidx huniq
    info.edited_rows st [] hnd
  have hz : ([] : List StoreCall).count (.modify_item k d) = 0 := rfl
  rw [hz] at hbound hrec
  cases he1 : (runEdited df cols noFail info.edited_rows st []).err with
  | some e =>
    rw [process_edits_err1 he1]
    exact ⟨le_trans hbound (by omega), hrec⟩
  | none =>
    have hf2 := runAdded_frame cols noFail info.added_rows
      (runEdited df cols noFail info.edited_rows st []).state
      (runEdited df cols noFail info.edited_rows st []).calls
    have h2c : (runAdded cols noFail info.added_rows
        (runEdited df cols noFail info.edited_rows st []).state
        (runEdited df cols noFail info.edited_rows st []).calls).calls.count
        (.modify_item k d) =
        (runEdited df cols noFail info.edited_rows st []).calls.count
          (.modify_item k d) := (hf2.2.2 k).2 d
    have h2e : (runAdded cols noFail info.added_rows
        (runEdited df cols noFail info.edited_rows st []).state
        (runEdited df cols noFail info.edited_rows st []).calls).state.edited_rows =
        (runEdited df cols noFail info.edited_rows st []).state.edited_rows := hf2.1
    cases he2 : (runAdded cols noFail info.added_rows
        (runEdited df cols noFail info.edited_rows st []).state
        (runEdited df cols noFail info.edited_rows st []).calls).err with
    | some e =>
      rw [process_edits_err2 he1 he2, h2c, h2e]
      exact ⟨le_trans hbound (by omega), hrec⟩
    | none =>
      rw [process_edits_ok12 he1 he2]
      have hf3 := runDeleted_frame df noFail info.deleted_rows
        (runAdded cols noFail info.added_rows
          (runEdited df cols noFail info.edited_rows st []).state
          (runEdited df cols noFail info.edited_rows st []).calls).state
        (runAdded cols noFail info.added_rows
          (runEdited df cols noFail info.edited_rows st []).state
          (runEdited df cols noFail info.edited_rows st []).calls).calls
      rw [(hf3.2.2 k d).2, hf3.1, h2c, h2e]
      exact ⟨le_trans hbound (by omega), hrec⟩

/-- C1: for each (position, changed-columns) entry in the diff's edited rows
the editor resolves the position to a row key through the snapshot's index
and deserializes the changed columns; an identical (position, content) pair
already recorded in the applied-edits record is skipped with no store call,
otherwise `modify_item` is called once with that key and content and the
pair is recorded — hence when the position resolves uniquely in the snapshot
and each render's diff lists each position once, two consecutive render
cycles (the second starting from the record the first left behind) invoke
`modify_item` at most once for that (key, content). -/
theorem c1_edited_rows_partial_update_at_most_once (df : PyTable)
    (cols : List String) (info info2 : EditInfo) (st0 : ProcessedEdits)
    (idx0 : Nat) (k : PyVal) (d : PyRow)
    (hidx : df.index[idx0]? = some k)
    (huniq : ∀ j : Nat, df.index[j]? = some k → j = idx0)
    (hn1 : (info.edited_rows.map Prod.fst).Nodup)
    (hn2 : (info2.edited_rows.map Prod.fst).Nodup) :
    (∀ (idx : Nat) (erow : PyRow) (key : PyVal) (dd : PyRow)
        (rest : List (Nat × PyRow)) (st : ProcessedEdits) (calls : List StoreCall),
      df.index[idx]? = some key →
      deserialize_json_cols_map erow cols = .ok dd →
      (st.edited_rows.lookup idx = some dd →
        runEdited df cols noFail ((idx, erow) :: rest) st calls =
          runEdited df cols noFail rest st calls) ∧
      (st.edited_rows.lookup idx ≠ some dd →
        runEdited df cols noFail ((idx, erow) :: rest) st calls =
          runEdited df cols noFail rest
            ⟨updateAssoc st.edited_rows idx dd, st.added_rows, st.deleted_rows⟩
            (calls ++ [.modify_item key dd]))) ∧
    ((process_edits df cols noFail info st0).calls ++
        (process_edits df cols noFail info2
          (process_edits df cols noFail info st0).state).calls).count
      (.modify_item k d) ≤ 1 := by
  refine ⟨fun idx erow key dd rest st calls hix hd =>
    ⟨fun hlk => runEdited_cons_skip noFail hix hd hlk rest calls,
     fun hlk => runEdited_cons_call hix hd hlk rfl rest calls⟩, ?_⟩
  rw [List.count_append]
  obtain ⟨hb1, hr1⟩ := process_edits_mod_spec df cols info st0 hidx huniq hn1
  obtain ⟨hb2, hr2⟩ := process_edits_mod_spec df cols info2
    (process_edits df cols noFail info st0).state hidx huniq hn2
  by_cases hz : (process_edits df cols noFail info st0).calls.count
      (.modify_item k d) = 0
  · have h2 : (process_edits df cols noFail info2
        (process_edits df cols noFail info st0).state).calls.count
        (.modify_item k d) ≤ 1 := le_trans hb2 (by split <;> omega)
    omega
  · have hlk := hr1 (Nat.pos_of_ne_zero hz)
    rw [if_pos hlk] at hb2
    have h1 : (process_edits df cols noFail info st0).calls.count
        (.modify_item k d) ≤ 1 := le_trans hb1 (by split <;> omega)
    omega

/-- Witness for C1: a one-row table with key "a"; the diff edits position 0
in both of two consecutive render cycles with the same content; the single
step resolves the key, calls `modify_item` and records the pair, and the
pair of runs contains the call once. -/
theorem c1_edited_rows_partial_update_at_most_once_witness :
    (runEdited ⟨[.str "a"], []⟩ [] noFail [(0, [("n", .int 2)])] ⟨[], [], []⟩ [] =
      runEdited ⟨[.str "a"], []⟩ [] noFail []
        ⟨updateAssoc [] 0 [("n", .int 2)], [], []⟩
        [.modify_item (.str "a") [("n", .int 2)]]) ∧
    ((process_edits ⟨[.str "a"], []⟩ [] noFail
          ⟨[(0, [("n", .int 2)])], [], []⟩ ⟨[], [], []⟩).calls ++
        (process_edits ⟨[.str "a"], []⟩ [] noFail
          ⟨[(0, [("n", .int 2)])], [], []⟩
          (process_edits ⟨[.str "a"], []⟩ [] noFail
            ⟨[(0, [("n", .int 2)])], [], []⟩ ⟨[], [], []⟩).state).calls).count
      (.modify_item (.str "a") [("n", .int 2)]) ≤ 1 := by
  obtain ⟨hmech, hcount⟩ := c1_edited_rows_partial_update_at_most_once
    ⟨[.str "a"], []⟩ [] ⟨[(0, [("n", .int 2)])], [], []⟩
    ⟨[(0, [("n", .int 2)])], [], []⟩ ⟨[], [], []⟩ 0 (.str "a") [("n", .int 2)]
    rfl
    (fun j hj => by
      cases j with
      | zero => rfl
      | succ n => simp at hj)
    (by decide) (by decide)
  exact ⟨(hmech 0 [("n", .int 2)] (.str "a") [("n", .int 2)] [] ⟨[], [], []⟩ []
      rfl rfl).2 (by simp), hcount⟩

theorem runEdited_append (df : PyTable) (cols : List String) (sf : StoreCall → Bool) :
    ∀ (pre rest : List (Nat × PyRow)) (st : ProcessedEdits) (calls : List StoreCall),
      (runEdited df cols sf pre st calls).err = Option.none →
      runEdited df cols sf (pre ++ rest) st calls =
        runEdited df cols sf rest (runEdited df cols sf pre st calls).state
          (runEdited df cols sf pre st calls).calls := by
  intro pre
  induction pre with
  | nil =>
    intro rest st calls _
    rfl
  | cons e pre2 ih =>
    obtain ⟨idx, erow⟩ := e
    intro rest st calls h
    rw [List.cons_append]
    cases hix : df.index[idx]? with
    | none =>
      rw [runEdited_cons_noidx cols sf hix] at h
      simp at h
    | some key =>
      cases hd : deserialize_json_cols_map erow cols with
      | error e2 =>
        rw [runEdited_cons_err sf hix hd] at h
        simp at h
      | ok dc =>
        by_cases hlk : st.edited_rows.lookup idx = some dc
        · rw [runEdited_cons_skip sf hix hd hlk] at h ⊢
          rw [runEdited_cons_skip sf hix hd hlk]
          exact ih rest st calls h
        · cases hsf : sf (.modify_item key dc) with
          | true =>
            rw [runEdited_cons_fail hix hd hlk hsf] at h
            simp at h
          | false =>
            rw [runEdited_cons_call hix hd hlk hsf] at h ⊢
            rw [runEdited_cons_call hix hd hlk hsf]
            exact ih rest _ _ h

theorem runAdded_append (cols : List String) (sf : StoreCall → Bool) :
    ∀ (pre rest : List PyRow) (st : ProcessedEdits) (calls : List StoreCall),
      (runAdded cols sf pre st calls).err = Option.none →
      runAdded cols sf (pre ++ rest) st calls =
        runAdded cols sf rest (runAdded cols sf pre st calls).state
          (runAdded cols sf pre st calls).calls := by
  intro pre
  induction pre with
  | nil =>
    intro rest st calls _
    rfl
  | cons arow pre2 ih =>
    intro rest st calls h
    rw [List.cons_append]
    cases hd : deserialize_json_cols_map arow cols with
    | error e2 =>
      rw [runAdded_cons_err sf hd] at h
      simp at h
    | ok dc =>
      cases hk : dc.lookup "_index" with
      | none =>
        rw [runAdded_cons_nokey sf hd hk] at h
        simp at h
      | some keys =>
        cases hr : added_row_repr (eraseKey "_index" dc) with
        | error e2 =>
          rw [runAdded_cons_badrepr sf hd hk hr] at h
          simp at h
        | ok rep =>
          by_cases hm : rep ∈ st.added_rows
          · rw [runAdded_cons_skip sf hd hk hr hm] at h ⊢
            rw [runAdded_cons_skip sf hd hk hr hm]
            exact ih rest st calls h
          · cases hsf : sf (.put_item keys (eraseKey "_index" dc)) with
            | true =>
              rw [runAdded_cons_fail hd hk hr hm hsf] at h
              simp at h
            | false =>
              rw [runAdded_cons_call hd hk hr hm hsf] at h ⊢
              rw [runAdded_cons_call hd hk hr hm hsf]
              exact ih rest _ _ h

theorem runDeleted_append (df : PyTable) (sf : StoreCall → Bool) :
    ∀ (pre rest : List Nat) (st : ProcessedEdits) (calls : List StoreCall),
      (runDeleted df sf pre st calls).err = Option.none →
      runDeleted df sf (pre ++ rest) st calls =
        runDeleted df sf rest (runDeleted df sf pre st calls).state
          (runDeleted df sf pre st calls).calls := by
  intro pre
  induction pre with
  | nil =>
    intro rest st calls _
    rfl
  | cons idx pre2 ih =>
    intro rest st calls h
    rw [List.cons_append]
    cases hix : df.index[idx]? with
    | none =>
      rw [runDeleted_cons_none sf hix] at h
      simp at h
    | some key =>
      by_cases hm : key ∈ st.deleted_rows
      · rw [runDeleted_cons_mem sf hix hm] at h ⊢
        rw [runDeleted_cons_mem sf hix hm]
        exact ih rest st calls h
      · cases hsf : sf (.del_item key) with
        | true =>
          rw [runDeleted_cons_fail hix hm hsf] at h
          simp at h
        | false =>
          rw [runDeleted_cons_call hix hm hsf] at h ⊢
          rw [runDeleted_cons_call hix hm hsf]
          exact ih rest _ _ h

/-- C8: when a store mutation call raises for a diff entry, the failure
propagates out of the loop as the store's exception with no local recovery:
the run ends at that entry with the failing call appended to the calls made
so far, the applied-edits record exactly as the earlier entries left it (the
failing entry is not marked applied), and the remaining entries
unprocessed.  Stated for each of the three loops. -/
theorem c8_store_failure_not_marked_applied (df : PyTable) (cols : List String)
    (sf : StoreCall → Bool) :
    (∀ (pre : List (Nat × PyRow)) (idx : Nat) (erow : PyRow)
        (post : List (Nat × PyRow)) (st0 : ProcessedEdits)
        (calls0 : List StoreCall) (key : PyVal) (dd : PyRow),
      (runEdited df cols sf pre st0 calls0).err = Option.none →
      df.index[idx]? = some key →
      deserialize_json_cols_map erow cols = .ok dd →
      ¬((runEdited df cols sf pre st0 calls0).state.edited_rows.lookup idx =
        some dd) →
      sf (.modify_item key dd) = true →
      runEdited df cols sf (pre ++ (idx, erow) :: post) st0 calls0 =
        ⟨(runEdited df cols sf pre st0 calls0).calls ++ [.modify_item key dd],
         (runEdited df cols sf pre st0 calls0).state, some .storeError⟩) ∧
    (∀ (pre : List PyRow) (arow : PyRow) (post : List PyRow)
        (st0 : ProcessedEdits) (calls0 : List StoreCall) (dd : PyRow)
        (keys : PyVal) (rep : List Char),
      (runAdded cols sf pre st0 calls0).err = Option.none →
      deserialize_json_cols_map arow cols = .ok dd →
      dd.lookup "_index" = some keys →
      added_row_repr (eraseKey "_index" dd) = .ok rep →
      rep ∉ (runAdded cols sf pre st0 calls0).state.added_rows →
      sf (.put_item keys (eraseKey "_index" dd)) = true →
      runAdded cols sf (pre ++ arow :: post) st0 calls0 =
        ⟨(runAdded cols sf pre st0 calls0).calls ++
            [.put_item keys (eraseKey "_index" dd)],
         (runAdded cols sf pre st0 calls0).state, some .storeError⟩) ∧
    (∀ (pre : List Nat) (idx : Nat) (post : List Nat) (st0 : ProcessedEdits)
        (calls0 : List StoreCall) (key : PyVal),
      (runDeleted df sf pre st0 calls0).err = Option.none →
      df.index[idx]? = some key →
      key ∉ (runDeleted df sf pre st0 calls0).state.deleted_rows →
      sf (.del_item key) = true →
      runDeleted df sf (pre ++ idx :: post) st0 calls0 =
        ⟨(runDeleted df sf pre st0 calls0).calls ++ [.del_item key],
         (runDeleted df sf pre st0 calls0).state, some .storeError⟩) := by
  refine ⟨fun pre idx erow post st0 calls0 key dd hpre hix hd hlk hsf => ?_,
    fun pre arow post st0 calls0 dd keys rep hpre hd hk hr hm hsf => ?_,
    fun pre idx post st0 calls0 key hpre hix hm hsf => ?_⟩
  · rw [runEdited_append df cols sf pre ((idx, erow) :: post) st0 calls0 hpre]
    rw [runEdited_cons_fail hix hd hlk hsf]
  · rw [runAdded_append cols sf pre (arow :: post) st0 calls0 hpre]
    rw [runAdded_cons_fail hd hk hr hm hsf]
  · rw [runDeleted_append df sf pre (idx :: post) st0 calls0 hpre]
    rw [runDeleted_cons_fail hix hm hsf]

/-- Witness for C8: with a one-row table, deterministic failing store, and
empty prefixes, each of the three loops ends with `storeError`, the failing
call recorded in the call list, and the applied-edits record unchanged. -/
theorem c8_store_failure_not_marked_applied_witness :
    (runEdited ⟨[.str "a"], []⟩ [] (fun _ => true)
        [(0, [("n", .int 1)])] ⟨[], [], []⟩ [] =
      ⟨[.modify_item (.str "a") [("n", .int 1)]], ⟨[], [], []⟩,
        some .storeError⟩) ∧
    (runAdded [] (fun _ => true)
        [[("_index", .str "b"), ("n", .int 1)]] ⟨[], [], []⟩ [] =
      ⟨[.put_item (.str "b") [("n", .int 1)]], ⟨[], [], []⟩,
        some .storeError⟩) ∧
    (runDeleted ⟨[.str "a"], []⟩ (fun _ => true) [0] ⟨[], [], []⟩ [] =
      ⟨[.del_item (.str "a")], ⟨[], [], []⟩, some .storeError⟩) := by
  obtain ⟨he, ha, hd⟩ := c8_store_failure_not_marked_applied
    ⟨[.str "a"], []⟩ [] (fun _ => true)
  refine ⟨?_, ?_, ?_⟩
  · exact he [] 0 [("n", .int 1)] [] ⟨[], [], []⟩ [] (.str "a") [("n", .int 1)]
      rfl rfl rfl (by decide) rfl
  · exact ha [] [("_index", .str "b"), ("n", .int 1)] [] ⟨[], [], []⟩ []
      [("_index", .str "b"), ("n", .int 1)] (.str "b")
      (("\x7b\"n\": 1\x7d").data) rfl rfl rfl rfl (by decide) rfl
  · exact hd [] 0 [] ⟨[], [], []⟩ [] (.str "a") rfl rfl (by decide) rfl

theorem edit_stopped_json {df widget_df sdf : PyTable} {json_cols : List String}
    {c : String}
    (hdet : get_json_serializable_cols df = some json_cols)
    (hser : serialize_json_cols df json_cols = .ok sdf)
    (hde : deserialize_json_cols_df widget_df json_cols = .error (.jsonError c))
    (info : EditInfo) (sf : StoreCall → Bool) (st : ProcessedEdits) :
    edit df widget_df info sf st = .stopped (jsonErrorMessage c) [] st := by
  rw [edit.eq_def]
  simp [hdet, hser, hde]

theorem edit_raised_err {df widget_df sdf edited_df : PyTable}
    {json_cols : List String} {e : PyErr} {info : EditInfo} {sf : StoreCall → Bool}
    {st : ProcessedEdits}
    (hdet : get_json_serializable_cols df = some json_cols)
    (hser : serialize_json_cols df json_cols = .ok sdf)
    (hok : deserialize_json_cols_df widget_df json_cols = .ok edited_df)
    (herr : (process_edits df json_cols sf info st).err = some e) :
    edit df widget_df info sf st =
      .raised e (process_edits df json_cols sf info st).calls
        (process_edits df json_cols sf info st).state := by
  rw [edit.eq_def]
  simp [hdet, hser, hok, herr]

/-- C3 counterexample: a JSONError raised while deserializing a diff entry
(malformed text in the `tags` column of an edited row) is NOT caught at the
render boundary of `edit()`: the outcome is the exception escaping
uncaught — not the caught-and-converted `st.error`/`st.stop` path — because
the try/except in `edit()` wraps only the display-copy deserialization, not
`process_edits`. -/
theorem c3_counterexample :
    edit ⟨[.str "a"], [[("tags", .list (.cons (.str "x") .nil))]]⟩
        ⟨[.str "a"], [[("tags", .str "[\"x\"]")]]⟩
        ⟨[(0, [("tags", .str "\x7bbad")])], [], []⟩ noFail ⟨[], [], []⟩ =
      .raised (.jsonError "tags") [] ⟨[], [], []⟩ ∧
    isStopped (edit ⟨[.str "a"], [[("tags", .list (.cons (.str "x") .nil))]]⟩
        ⟨[.str "a"], [[("tags", .str "[\"x\"]")]]⟩
        ⟨[(0, [("tags", .str "\x7bbad")])], [], []⟩ noFail ⟨[], [], []⟩) =
      false :=
  ⟨rfl, rfl⟩

/-- C3 (corrected): a JSONError from deserializing the edited display copy
is caught in `edit()`, converted to the user-visible message, and stops the
render with no store calls and the applied-edits record unchanged; a
JSONError (or any exception) from `process_edits` instead escapes `edit()`
uncaught — still halting that cycle's remaining diff processing — and a
JSONError at one diff entry leaves the store calls and record entries of the
entries processed earlier in the same cycle in place (not reverted). -/
theorem c3_jsonerror_boundary_paths (df widget_df sdf : PyTable)
    (json_cols : List String) (sf : StoreCall → Bool) (st : ProcessedEdits)
    (hdet : get_json_serializable_cols df = some json_cols)
    (hser : serialize_json_cols df json_cols = .ok sdf) :
    (∀ c : String,
      deserialize_json_cols_df widget_df json_cols = .error (.jsonError c) →
      ∀ info : EditInfo,
        edit df widget_df info sf st = .stopped (jsonErrorMessage c) [] st) ∧
    (∀ edited_df : PyTable,
      deserialize_json_cols_df widget_df json_cols = .ok edited_df →
      ∀ (info : EditInfo) (e : PyErr),
        (process_edits df json_cols sf info st).err = some e →
        edit df widget_df info sf st =
          .raised e (process_edits df json_cols sf info st).calls
            (process_edits df json_cols sf info st).state ∧
        isStopped (edit df widget_df info sf st) = false) ∧
    (∀ edited_df : PyTable,
      deserialize_json_cols_df widget_df json_cols = .ok edited_df →
      ∀ (pre : List (Nat × PyRow)) (idx : Nat) (erow : PyRow)
        (post : List (Nat × PyRow)) (ar : List PyRow) (dr : List Nat)
        (c : String) (key : PyVal),
        (runEdited df json_cols sf pre st []).err = Option.none →
        df.index[idx]? = some key →
        deserialize_json_cols_map erow json_cols = .error (.jsonError c) →
        edit df widget_df ⟨pre ++ (idx, erow) :: post, ar, dr⟩ sf st =
          .raised (.jsonError c) (runEdited df json_cols sf pre st []).calls
            (runEdited df json_cols sf pre st []).state) := by
  refine ⟨fun c hde info => edit_stopped_json hdet hser hde info sf st,
    fun edited_df hok info e herr =>
      ⟨edit_raised_err hdet hser hok herr,
       by rw [edit_raised_err hdet hser hok herr]; rfl⟩,
    fun edited_df hok pre idx erow post ar dr c key hpre hix hder => ?_⟩
  have hrun : runEdited df json_cols sf (pre ++ (idx, erow) :: post) st [] =
      ⟨(runEdited df json_cols sf pre st []).calls,
       (runEdited df json_cols sf pre st []).state, some (.jsonError c)⟩ := by
    rw [runEdited_append df json_cols sf pre ((idx, erow) :: post) st [] hpre,
      runEdited_cons_err sf hix hder]
  have hpe : process_edits df json_cols sf ⟨pre ++ (idx, erow) :: post, ar, dr⟩ st =
      ⟨(runEdited df json_cols sf pre st []).calls,
       (runEdited df json_cols sf pre st []).state, some (.jsonError c)⟩ := by
    have h1 : (runEdited df json_cols sf
        (EditInfo.edited_rows ⟨pre ++ (idx, erow) :: post, ar, dr⟩) st []).err =
        some (.jsonError c) := by
      rw [show EditInfo.edited_rows ⟨pre ++ (idx, erow) :: post, ar, dr⟩ =
        pre ++ (idx, erow) :: post from rfl, hrun]
    rw [process_edits_err1 h1]
    rw [show EditInfo.edited_rows ⟨pre ++ (idx, erow) :: post, ar, dr⟩ =
      pre ++ (idx, erow) :: post from rfl, hrun]
  have h2 := edit_raised_err hdet hser hok (by rw [hpe])
  rw [hpe] at h2
  exact h2

/-- Witness for C3: on the one-row table with JSON column `tags`, a
malformed widget copy stops with the user-visible message; a malformed
diff entry makes `edit()` raise the JSONError uncaught with no store call
and the record unchanged. -/
theorem c3_jsonerror_boundary_paths_witness :
    (edit ⟨[.str "a"], [[("tags", .list (.cons (.str "x") .nil))]]⟩
        ⟨[.str "a"], [[("tags", .str "\x7bbad")]]⟩
        ⟨[], [], []⟩ noFail ⟨[], [], []⟩ =
      .stopped (jsonErrorMessage "tags") [] ⟨[], [], []⟩) ∧
    (edit ⟨[.str "a"], [[("tags", .list (.cons (.str "x") .nil))]]⟩
        ⟨[.str "a"], [[("tags", .str "[\"x\"]")]]⟩
        ⟨[(0, [("tags", .str "\x7bbad")])], [], []⟩ noFail ⟨[], [], []⟩ =
      .raised (.jsonError "tags") [] ⟨[], [], []⟩ ∧
    isStopped (edit ⟨[.str "a"], [[("tags", .list (.cons (.str "x") .nil))]]⟩
        ⟨[.str "a"], [[("tags", .str "[\"x\"]")]]⟩
        ⟨[(0, [("tags", .str "\x7bbad")])], [], []⟩ noFail ⟨[], [], []⟩) =
      false) ∧
    (edit ⟨[.str "a"], [[("tags", .list (.cons (.str "x") .nil))]]⟩
        ⟨[.str "a"], [[("tags", .str "[\"x\"]")]]⟩
        ⟨[(0, [("tags", .str "\x7bbad")])], [], []⟩ noFail ⟨[], [], []⟩ =
      .raised (.jsonError "tags") [] ⟨[], [], []⟩) := by
  obtain ⟨h1, _, _⟩ := c3_jsonerror_boundary_paths
    ⟨[.str "a"], [[("tags", .list (.cons (.str "x") .nil))]]⟩
    ⟨[.str "a"], [[("tags", .str "\x7bbad")]]⟩
    ⟨[.str "a"], [[("tags", .str "[\"x\"]")]]⟩ ["tags"] noFail ⟨[], [], []⟩
    rfl rfl
  obtain ⟨_, h2, h3⟩ := c3_jsonerror_boundary_paths
    ⟨[.str "a"], [[("tags", .list (.cons (.str "x") .nil))]]⟩
    ⟨[.str "a"], [[("tags", .str "[\"x\"]")]]⟩
    ⟨[.str "a"], [[("tags", .str "[\"x\"]")]]⟩ ["tags"] noFail ⟨[], [], []⟩
    rfl rfl
  exact ⟨h1 "tags" rfl ⟨[], [], []⟩,
    h2 ⟨[.str "a"], [[("tags", .list (.cons (.str "x") .nil))]]⟩ rfl
      ⟨[(0, [("tags", .str "\x7bbad")])], [], []⟩ (.jsonError "tags") rfl,
    h3 ⟨[.str "a"], [[("tags", .list (.cons (.str "x") .nil))]]⟩ rfl
      [] 0 [("tags", .str "\x7bbad")] [] [] [] "tags" (.str "a") rfl rfl rfl⟩
